import Mathlib

/-!
Shallow embedding of the bilingual-autocomplete search core.

Strings are modelled as lists of Unicode code points (`Str := List Char`).
JavaScript `Set` objects are modelled as duplicate-free lists built with
`jsAdd` (insertion-order add-if-absent), `Map` objects holding position sets
as functions `Str → List Int` (an absent key is the empty list, matching the
`has`-guarded accesses in the source).  `Array.prototype.sort((a,b)=>a-b)` is
modelled by `List.insertionSort (· ≤ ·)` and `this.data[idx]` by `dataGet`,
which yields `none` for an out-of-range index (JavaScript `undefined`).
-/

abbrev Str := List Char

/-- Model of the per-character effect of JavaScript `String.prototype.toLowerCase`
on the Basic Latin range (the only cased range; kana and kanji are caseless). -/
def jsLowerChar (c : Char) : Char :=
  if 65 ≤ c.toNat ∧ c.toNat ≤ 90 then Char.ofNat (c.toNat + 32) else c

/-- Model of the per-character effect of JavaScript `String.prototype.toUpperCase`. -/
def jsUpperChar (c : Char) : Char :=
  if 97 ≤ c.toNat ∧ c.toNat ≤ 122 then Char.ofNat (c.toNat - 32) else c

/-- Model of `String.prototype.toLowerCase`. -/
def jsToLower (s : Str) : Str := s.map jsLowerChar

/-- Model of `String.prototype.toUpperCase`. -/
def jsToUpper (s : Str) : Str := s.map jsUpperChar

/-- The white-space code points removed by `String.prototype.trim` (the ones
relevant to this code base: ASCII white space, NBSP, LS, PS, ideographic
space, BOM). -/
def jsIsWs (c : Char) : Bool :=
  c.toNat == 9 || c.toNat == 10 || c.toNat == 11 || c.toNat == 12 ||
  c.toNat == 13 || c.toNat == 32 || c.toNat == 160 || c.toNat == 8232 ||
  c.toNat == 8233 || c.toNat == 12288 || c.toNat == 65279

/-- Model of `String.prototype.trim`. -/
def jsTrim (s : Str) : Str :=
  ((s.dropWhile jsIsWs).reverse.dropWhile jsIsWs).reverse

/-- Model of `String.prototype.includes`: `jsIncludes hay needle` is true when
`needle` occurs in `hay` as a contiguous substring. -/
def jsIncludes : Str → Str → Bool
  | [], needle => needle.isEmpty
  | c :: t, needle => needle.isPrefixOf (c :: t) || jsIncludes t needle

/-- Model of `Set.prototype.add` on a JavaScript `Set` represented as its
insertion-ordered, duplicate-free element list. -/
def jsAdd {α : Type} [DecidableEq α] (l : List α) (x : α) : List α :=
  if x ∈ l then l else l ++ [x]

/-- Model of the JavaScript array access `this.data[idx]`: `none` stands for
`undefined` (negative or out-of-range index). -/
def dataGet (data : List Str) (i : Int) : Option Str :=
  if 0 ≤ i then data.get? i.toNat else none

/-- Pointwise update of a term-to-positions table, modelling
`if (!m.has(term)) m.set(term, new Set()); m.get(term).add(idx)`. -/
def ttiAdd (tti : Str → List Int) (term : Str) (idx : Int) : Str → List Int :=
  fun u => if u = term then jsAdd (tti u) idx else tti u

/-! ### Map variant (`src/map.js`, class `BilingualMap`) -/

structure MapState where
  termToTextIndices : Str → List Int
  data : List Str
  semanticSets : List (List Str)

/-- One iteration of the `this.data.forEach((text, index) => ...)` body of
`BilingualMap.buildMap`: for each semantic set and term, if the lower-cased
term occurs in the lower-cased text, register the (original-case) term
against the current index. -/
def mapStepDoc (sets : List (List Str)) (tti : Str → List Int) (idx : Int)
    (text : Str) : Str → List Int :=
  sets.foldl (fun tti set =>
    set.foldl (fun tti term =>
      if jsIncludes (jsToLower text) (jsToLower term) then ttiAdd tti term idx
      else tti) tti) tti

/-- The document loop of `BilingualMap.buildMap`, with the running index made
explicit. -/
def mapBuildDocs (sets : List (List Str)) :
    List Str → Int → (Str → List Int) → (Str → List Int)
  | [], _, tti => tti
  | text :: rest, idx, tti =>
      mapBuildDocs sets rest (idx + 1) (mapStepDoc sets tti idx text)

/-- Constructing a `BilingualMap` over the given documents and semantic sets
(the sets stand for the contents of the loaded JSON table). -/
def mapBuild (data : List Str) (sets : List (List Str)) : MapState :=
  { termToTextIndices := mapBuildDocs sets data 0 (fun _ => [])
    data := data
    semanticSets := sets }

/-- `BilingualMap.search`. -/
def MapState.search (st : MapState) (q : Str) : List (Option Str) :=
  if jsTrim q = [] then [] else
  let lowerQuery := jsToLower q
  let matchingSets := st.semanticSets.filter
    (fun set => set.any (fun term => lowerQuery.isPrefixOf (jsToLower term)))
  let resultIndices := matchingSets.foldl (fun acc set =>
    set.foldl (fun acc term =>
      (st.termToTextIndices term).foldl (fun acc idx => jsAdd acc idx) acc)
      acc) []
  (resultIndices.insertionSort (· ≤ ·)).map (dataGet st.data)

/-! ### Trie variant (`src/trie.js`, class `BilingualTrie`)

Trie nodes carry `children` (a `Map` from character to node, kept in
insertion order), an `isEnd` flag, a per-node `textIndices` set and an
optional `completeTerm` (absent = `undefined`; the `node.completeTerm`
truthiness test in `collectCompletions` is false for both `undefined` and
the empty string). -/

mutual
inductive JTrie : Type where
  | mk : Bool → Option Str → List Int → JChildren → JTrie
inductive JChildren : Type where
  | nil : JChildren
  | cons : Char → JTrie → JChildren → JChildren
end

def JTrie.isEnd : JTrie → Bool
  | .mk b _ _ _ => b

def JTrie.completeTerm : JTrie → Option Str
  | .mk _ ct _ _ => ct

def JTrie.textIndices : JTrie → List Int
  | .mk _ _ ti _ => ti

def JTrie.children : JTrie → JChildren
  | .mk _ _ _ ch => ch

/-- `createNode()`. -/
def createNode : JTrie := .mk false none [] .nil

/-- `Map.prototype.get` on the children map. -/
def lookupC : JChildren → Char → Option JTrie
  | .nil, _ => none
  | .cons c t rest, c' => if c' = c then some t else lookupC rest c'

/-- `Map.prototype.set` on the children map (update in place, or append). -/
def upsertC : JChildren → Char → JTrie → JChildren
  | .nil, c, t => .cons c t .nil
  | .cons c' t' rest, c, t =>
      if c' = c then .cons c t rest else .cons c' t' (upsertC rest c t)

def JChildren.toList : JChildren → List (Char × JTrie)
  | .nil => []
  | .cons c t rest => (c, t) :: rest.toList

/-- Adding an index to a node's `textIndices` set. -/
def addIdx : JTrie → Int → JTrie
  | .mk b ct ti ch, i => .mk b ct (jsAdd ti i) ch

/-- The trie part of `BilingualTrie.insertTerm`: walk the lower-cased term
character by character, creating missing children, adding `textIndex` to
every node stepped into, and mark the final node with `isEnd` and the
original-case `completeTerm`. -/
def insertT : JTrie → Str → Str → Int → JTrie
  | .mk _ _ ti ch, [], orig, _ => .mk true (some orig) ti ch
  | .mk b ct ti ch, c :: rest, orig, idx =>
      let child := (lookupC ch c).getD createNode
      .mk b ct ti (upsertC ch c (insertT (addIdx child idx) rest orig idx))

/-- The character-walk shared by `searchInTrie` and `findCompletions`. -/
def walkT : JTrie → Str → Option JTrie
  | n, [] => some n
  | n, c :: rest =>
      match lookupC n.children c with
      | none => none
      | some m => walkT m rest

mutual
/-- `BilingualTrie.collectAllTextIndices(node, result)`. -/
def collectAllTextIndices : JTrie → List Int → List Int
  | .mk isEnd _ ti ch, acc =>
      collectAllTextIndicesC ch (if isEnd then ti.foldl (fun a i => jsAdd a i) acc else acc)
/-- The `node.children.forEach(...)` recursion of `collectAllTextIndices`. -/
def collectAllTextIndicesC : JChildren → List Int → List Int
  | .nil, acc => acc
  | .cons _ t rest, acc => collectAllTextIndicesC rest (collectAllTextIndices t acc)
end

mutual
/-- `BilingualTrie.collectCompletions(node, suggestions)`; note the
truthiness test skips an empty `completeTerm`. -/
def collectCompletions : JTrie → List Str → List Str
  | .mk isEnd ct _ ch, acc =>
      collectCompletionsC ch
        (if isEnd then
          match ct with
          | some t => if t = [] then acc else jsAdd acc t
          | none => acc
        else acc)
/-- The `node.children.forEach(...)` recursion of `collectCompletions`. -/
def collectCompletionsC : JChildren → List Str → List Str
  | .nil, acc => acc
  | .cons _ t rest, acc => collectCompletionsC rest (collectCompletions t acc)
end

structure RootState where
  root : JTrie
  termToTextIndices : Str → List Int
  data : List Str
  semanticSets : List (List Str)

/-- `BilingualTrie.insertTerm(term, textIndex)`: trie insertion along the
lower-cased term plus the side-table update keyed by the original term. -/
def RootState.insertTerm (st : RootState) (term : Str) (idx : Int) : RootState :=
  { st with
    root := insertT st.root (jsToLower term) term idx
    termToTextIndices := ttiAdd st.termToTextIndices term idx }

/-- One iteration of the first `buildTrie` loop: for every set and term, if
the lower-cased term occurs in the lower-cased text, insert the term with the
current document index. -/
def rootStepDoc (sets : List (List Str)) (st : RootState) (idx : Int)
    (text : Str) : RootState :=
  sets.foldl (fun st set =>
    set.foldl (fun st term =>
      if jsIncludes (jsToLower text) (jsToLower term) then st.insertTerm term idx
      else st) st) st

/-- The document loop of `BilingualTrie.buildTrie`. -/
def rootBuildDocs (sets : List (List Str)) :
    List Str → Int → RootState → RootState
  | [], _, st => st
  | text :: rest, idx, st =>
      rootBuildDocs sets rest (idx + 1) (rootStepDoc sets st idx text)

/-- The second `buildTrie` loop: every semantic-set term is inserted with the
sentinel index `-1`. -/
def rootInsertAll (sets : List (List Str)) (st : RootState) : RootState :=
  sets.foldl (fun st set => set.foldl (fun st term => st.insertTerm term (-1)) st) st

/-- Constructing a `BilingualTrie` over the given documents and semantic sets
(the sets stand for the contents of the loaded JSON tables). -/
def rootBuild (data : List Str) (sets : List (List Str)) : RootState :=
  rootInsertAll sets
    (rootBuildDocs sets data 0
      { root := createNode
        termToTextIndices := fun _ => []
        data := data
        semanticSets := sets })

/-- `BilingualTrie.searchInTrie(query, matchedTextIndices)`. -/
def RootState.searchInTrie (st : RootState) (q : Str) (acc : List Int) : List Int :=
  match walkT st.root q with
  | none => acc
  | some n => collectAllTextIndices n acc

/-- `BilingualTrie.search`. -/
def RootState.search (st : RootState) (q : Str) : List (Option Str) :=
  if jsTrim q = [] then [] else
  let lowerQuery := jsToLower q
  let matchingSets := st.semanticSets.filter
    (fun set => set.any (fun term => lowerQuery.isPrefixOf (jsToLower term)))
  if matchingSets = [] then
    let matched := st.searchInTrie lowerQuery []
    (((matched.filter (fun idx => idx ≠ -1)).insertionSort (· ≤ ·)).map (dataGet st.data))
  else
    let resultIndices := matchingSets.foldl (fun acc set =>
      set.foldl (fun acc term =>
        (st.termToTextIndices term).foldl
          (fun acc idx => if idx ≠ -1 then jsAdd acc idx else acc) acc) acc) []
    ((resultIndices.insertionSort (· ≤ ·)).map (dataGet st.data))

/-- `BilingualTrie.findCompletions(query, suggestions)`. -/
def RootState.findCompletions (st : RootState) (q : Str) (acc : List Str) : List Str :=
  match walkT st.root q with
  | none => acc
  | some n => collectCompletions n acc

/-- `BilingualTrie.getAutocompleteSuggestions`. -/
def RootState.getAutocompleteSuggestions (st : RootState) (q : Str) : List Str :=
  if jsTrim q = [] then [] else st.findCompletions (jsToLower q) []

/-! ### Refactored trie variant (`src/src/data-structures/trie.js`)

`TrieNode` here has no per-node `textIndices`; the loader lower-cases every
term of every semantic set before `buildTrie` runs, and `buildTrie` registers
the whole set against a document as soon as one term of the set occurs in
it. -/

mutual
inductive NTrie : Type where
  | mk : Bool → Option Str → NChildren → NTrie
inductive NChildren : Type where
  | nil : NChildren
  | cons : Char → NTrie → NChildren → NChildren
end

def NTrie.isEnd : NTrie → Bool
  | .mk b _ _ => b

def NTrie.completeTerm : NTrie → Option Str
  | .mk _ ct _ => ct

def NTrie.children : NTrie → NChildren
  | .mk _ _ ch => ch

/-- `new TrieNode()`. -/
def newNode : NTrie := .mk false none .nil

def lookupN : NChildren → Char → Option NTrie
  | .nil, _ => none
  | .cons c t rest, c' => if c' = c then some t else lookupN rest c'

def upsertN : NChildren → Char → NTrie → NChildren
  | .nil, c, t => .cons c t .nil
  | .cons c' t' rest, c, t =>
      if c' = c then .cons c t rest else .cons c' t' (upsertN rest c t)

/-- The trie part of the refactored `insertTerm`: the term is inserted as
given (the loader already lower-cased it) and stored as `completeTerm`. -/
def insertTN : NTrie → Str → Str → NTrie
  | .mk _ _ ch, [], orig => .mk true (some orig) ch
  | .mk b ct ch, c :: rest, orig =>
      let child := (lookupN ch c).getD newNode
      .mk b ct (upsertN ch c (insertTN child rest orig))

/-- The character-walk of the refactored `findCompletions`. -/
def walkN : NTrie → Str → Option NTrie
  | n, [] => some n
  | n, c :: rest =>
      match lookupN n.children c with
      | none => none
      | some m => walkN m rest

mutual
/-- The refactored `collectCompletions(node, suggestions)`. -/
def collectCompletionsN : NTrie → List Str → List Str
  | .mk isEnd ct ch, acc =>
      collectCompletionsNC ch
        (if isEnd then
          match ct with
          | some t => if t = [] then acc else jsAdd acc t
          | none => acc
        else acc)
/-- The `node.children.forEach(...)` recursion of the refactored
`collectCompletions`. -/
def collectCompletionsNC : NChildren → List Str → List Str
  | .nil, acc => acc
  | .cons _ t rest, acc => collectCompletionsNC rest (collectCompletionsN t acc)
end

structure NewState where
  root : NTrie
  termToTextIndices : Str → List Int
  data : List Str
  semanticSets : List (List Str)

/-- The refactored `insertTerm(term, textIndex)`: an empty (or non-string,
see `NewState.insertTermJ`) term is skipped silently. -/
def NewState.insertTerm (st : NewState) (term : Str) (idx : Int) : NewState :=
  if term = [] then st else
  { st with
    root := insertTN st.root term term
    termToTextIndices := ttiAdd st.termToTextIndices term idx }

/-- One iteration of the refactored `buildTrie` document loop: if some term of
the (already lower-cased) set occurs in the lower-cased text, every term of
the set is registered against the current index. -/
def newStepDoc (sets : List (List Str)) (st : NewState) (idx : Int)
    (text : Str) : NewState :=
  sets.foldl (fun st set =>
    if set.any (fun term => jsIncludes (jsToLower text) term) then
      set.foldl (fun st term => st.insertTerm term idx) st
    else st) st

/-- The document loop of the refactored `buildTrie`. -/
def newBuildDocs (sets : List (List Str)) :
    List Str → Int → NewState → NewState
  | [], _, st => st
  | text :: rest, idx, st =>
      newBuildDocs sets rest (idx + 1) (newStepDoc sets st idx text)

/-- Constructing the refactored `BilingualTrie`: `loadSemanticSets` lower-cases
every term of every set, then `buildTrie` runs over the documents. -/
def newBuild (data : List Str) (rawSets : List (List Str)) : NewState :=
  let sets := rawSets.map (fun set => set.map jsToLower)
  newBuildDocs sets data 0
    { root := newNode
      termToTextIndices := fun _ => []
      data := data
      semanticSets := sets }

/-- The refactored `findCompletions(query, suggestions)`. -/
def NewState.findCompletions (st : NewState) (q : Str) (acc : List Str) : List Str :=
  match walkN st.root q with
  | none => acc
  | some n => collectCompletionsN n acc

/-- The refactored `getAutocompleteSuggestions`: note that it does NOT
lower-case its argument; `search` passes an already lower-cased query. -/
def NewState.getAutocompleteSuggestions (st : NewState) (q : Str) : List Str :=
  if jsTrim q = [] then [] else st.findCompletions q []

/-- The refactored `search`. -/
def NewState.search (st : NewState) (q : Str) : List (Option Str) :=
  if jsTrim q = [] then [] else
  let lowerQuery := jsToLower q
  let suggestions := st.getAutocompleteSuggestions lowerQuery
  let matchedTextIndices := suggestions.foldl (fun acc term =>
    (st.termToTextIndices term).foldl (fun acc idx => jsAdd acc idx) acc) []
  (matchedTextIndices.insertionSort (· ≤ ·)).map (dataGet st.data)

/-! ### Malformed-term models for claim C8

`JTerm := Option Str` represents a JavaScript value expected to be a string:
`none` is a non-string value.  The legacy `src/trie.js` build calls
`term.toLowerCase()` unguarded, so a non-string term makes construction
throw (`Except.error`).  The refactored loader lower-cases inside
`Array.prototype.map`, so a thrown `TypeError` is caught by the surrounding
`try`/`catch`, which discards the whole table. -/

abbrev JTerm := Option Str

/-- The legacy `insertTerm` applied to an arbitrary value: `term.toLowerCase()`
throws on a non-string. -/
def RootState.insertTermJ (st : RootState) (term : JTerm) (idx : Int) :
    Except Unit RootState :=
  match term with
  | none => .error ()
  | some t => .ok (st.insertTerm t idx)

/-- The first legacy `buildTrie` loop over arbitrary term values:
`term.toLowerCase()` in the match test throws on a non-string. -/
def rootStepDocJ (sets : List (List JTerm)) (st : RootState) (idx : Int)
    (text : Str) : Except Unit RootState :=
  sets.foldlM (fun st set =>
    set.foldlM (fun st term =>
      match term with
      | none => .error ()
      | some t =>
          if jsIncludes (jsToLower text) (jsToLower t) then .ok (st.insertTerm t idx)
          else .ok st) st) st

def rootBuildDocsJ (sets : List (List JTerm)) :
    List Str → Int → RootState → Except Unit RootState
  | [], _, st => .ok st
  | text :: rest, idx, st => do
      rootBuildDocsJ sets rest (idx + 1) (← rootStepDocJ sets st idx text)

def rootInsertAllJ (sets : List (List JTerm)) (st : RootState) :
    Except Unit RootState :=
  sets.foldlM (fun st set =>
    set.foldlM (fun st term => st.insertTermJ term (-1)) st) st

/-- Legacy construction over arbitrary term values: `Except.error` models the
`TypeError` escaping the constructor.  The stored `semanticSets` field keeps
the string payload of each term (a `Str`-typed field cannot hold a non-string
value; whenever one is present, construction throws before the field could
ever be read). -/
def rootBuildJ (data : List Str) (sets : List (List JTerm)) :
    Except Unit RootState := do
  rootInsertAllJ sets
    (← rootBuildDocsJ sets data 0
      { root := createNode
        termToTextIndices := fun _ => []
        data := data
        semanticSets := sets.map (fun set => set.map (fun t => t.getD [])) })

/-- The refactored `insertTerm` applied to an arbitrary value: the
`if (!term || typeof term !== 'string') return` guard skips non-strings and
the empty string. -/
def NewState.insertTermJ (st : NewState) (term : JTerm) (idx : Int) : NewState :=
  match term with
  | none => st
  | some t => st.insertTerm t idx

/-- The refactored `loadSemanticSets` applied to a raw table that may contain
non-string terms: the `map`-with-`toLowerCase` throws on the first
non-string, and the `catch` then sets `this.semanticSets = []`, discarding
the whole table. -/
def newLoadSets (raw : List (List JTerm)) : List (List Str) :=
  if raw.any (fun set => set.any (fun t => t.isNone)) then []
  else raw.map (fun set => set.map (fun t => jsToLower (t.getD [])))

/-- Forward direction of the path characterization: after any sequence of
`insertTerm` calls drawn from the semantic sets, every non-empty walkable
path is a prefix of some set term's lower-casing. -/
def WalkBounded (sets : List (List Str)) (root : JTrie) : Prop :=
  ∀ p, walkT root p ≠ none →
    p = [] ∨ ∃ set ∈ sets, ∃ term ∈ set, p.isPrefixOf (jsToLower term) = true

/-! ### Descendants of a trie node (for the completion-collection contract) -/

/-- `SubnodeAt n p m`: node `m` is reached from `n` by following the child
edges labelled by `p`. -/
inductive SubnodeAt : JTrie → Str → JTrie → Prop where
  | refl (n : JTrie) : SubnodeAt n [] n
  | step {n : JTrie} {c : Char} {k : JTrie} {p : Str} {m : JTrie} :
      (c, k) ∈ n.children.toList → SubnodeAt k p m → SubnodeAt n (c :: p) m

/-- `m` lies in the subtree rooted at `n` (at any depth). -/
def Subnode (n m : JTrie) : Prop := ∃ p, SubnodeAt n p m

/-- Invariant of the built legacy trie: every terminal node stores a canonical
term whose lower-casing equals the node's path from the root. -/
def TerminalPathInv (root : JTrie) : Prop :=
  ∀ p m, SubnodeAt root p m → m.isEnd = true →
    ∃ o, m.completeTerm = some o ∧ jsToLower o = p

/-! ### State-passing forms of the query operations

The `search`/`getAutocompleteSuggestions` method bodies contain no assignment
to any `this.*` field (all mutation happens on locally created `Set`s), so
their state-passing translation returns the receiver unchanged alongside the
result. -/

def RootState.searchOp (st : RootState) (q : Str) :
    RootState × List (Option Str) := (st, st.search q)

def RootState.getAutocompleteSuggestionsOp (st : RootState) (q : Str) :
    RootState × List Str := (st, st.getAutocompleteSuggestions q)

def NewState.searchOp (st : NewState) (q : Str) :
    NewState × List (Option Str) := (st, st.search q)

def NewState.getAutocompleteSuggestionsOp (st : NewState) (q : Str) :
    NewState × List Str := (st, st.getAutocompleteSuggestions q)

/-! ### Character-level lemmas -/

theorem toNat_ofNat_of_le (n : Nat) (h1 : 65 ≤ n) (h2 : n ≤ 122) :
    (Char.ofNat n).toNat = n := by
  interval_cases n <;> decide

theorem jsIsWs_jsLowerChar (c : Char) : jsIsWs (jsLowerChar c) = jsIsWs c := by
  unfold jsLowerChar
  split
  · rename_i h
    have h3 : (Char.ofNat (c.toNat + 32)).toNat = c.toNat + 32 :=
      toNat_ofNat_of_le _ (by omega) (by omega)
    rw [Bool.eq_iff_iff]
    simp only [jsIsWs, h3, Bool.or_eq_true, beq_iff_eq]
    omega
  · rfl

theorem jsLowerChar_jsUpperChar (c : Char) :
    jsLowerChar (jsUpperChar c) = jsLowerChar c := by
  unfold jsUpperChar
  split
  · rename_i h
    have h3 : (Char.ofNat (c.toNat - 32)).toNat = c.toNat - 32 :=
      toNat_ofNat_of_le _ (by omega) (by omega)
    unfold jsLowerChar
    rw [h3]
    have h4 : 65 ≤ c.toNat - 32 ∧ c.toNat - 32 ≤ 90 := by omega
    have h5 : ¬ (65 ≤ c.toNat ∧ c.toNat ≤ 90) := by omega
    simp only [if_pos h4, if_neg h5]
    have h6 : c.toNat - 32 + 32 = c.toNat := by omega
    rw [h6, Char.ofNat_toNat]
  · rfl

/-- Lower-casing an upper-cased string gives the same result as lower-casing
the original: `q.toUpperCase()` is a case variant of `q`. -/
theorem jsToLower_jsToUpper (s : Str) : jsToLower (jsToUpper s) = jsToLower s := by
  simp only [jsToLower, jsToUpper, List.map_map]
  exact List.map_congr_left (fun c _ => jsLowerChar_jsUpperChar c)

theorem jsToLower_length (s : Str) : (jsToLower s).length = s.length :=
  List.length_map _ _

theorem jsToLower_eq_nil_iff (s : Str) : jsToLower s = [] ↔ s = [] := by
  simp [jsToLower]

theorem jsTrim_eq_nil_iff (s : Str) :
    jsTrim s = [] ↔ ∀ c ∈ s, jsIsWs c = true := by
  unfold jsTrim
  rw [List.reverse_eq_nil_iff, List.dropWhile_eq_nil_iff]
  constructor
  · intro h c hc
    by_cases hd : c ∈ s.dropWhile jsIsWs
    · exact h c (List.mem_reverse.mpr hd)
    · have hsplit := List.takeWhile_append_dropWhile (p := jsIsWs) (l := s)
      have hmem : c ∈ s.takeWhile jsIsWs ++ s.dropWhile jsIsWs := by rw [hsplit]; exact hc
      rcases List.mem_append.mp hmem with h1 | h1
      · exact List.mem_takeWhile_imp h1
      · exact absurd h1 hd
  · intro h c hc
    have hd : c ∈ s.dropWhile jsIsWs := List.mem_reverse.mp hc
    exact h c ((List.dropWhile_sublist (p := jsIsWs) (l := s)).mem hd)

theorem allWs_congr :
    ∀ (q' q : Str), jsToLower q' = jsToLower q →
      ((∀ c ∈ q', jsIsWs c = true) ↔ (∀ c ∈ q, jsIsWs c = true))
  | [], q, h => by
      have : q = [] := by simpa [jsToLower] using h.symm
      subst this; simp
  | c' :: t', [], h => by simp [jsToLower] at h
  | c' :: t', c :: t, h => by
      simp only [jsToLower, List.map_cons, List.cons.injEq] at h
      obtain ⟨h1, h2⟩ := h
      have hhead : jsIsWs c' = jsIsWs c := by
        calc jsIsWs c' = jsIsWs (jsLowerChar c') := (jsIsWs_jsLowerChar _).symm
          _ = jsIsWs (jsLowerChar c) := by rw [h1]
          _ = jsIsWs c := jsIsWs_jsLowerChar _
      have htail := allWs_congr t' t h2
      simp only [List.mem_cons]
      constructor
      · rintro hall d (rfl | hd)
        · rw [← hhead]; exact hall c' (Or.inl rfl)
        · exact htail.mp (fun e he => hall e (Or.inr he)) d hd
      · rintro hall d (rfl | hd)
        · rw [hhead]; exact hall c (Or.inl rfl)
        · exact htail.mpr (fun e he => hall e (Or.inr he)) d hd

theorem jsTrim_nil_congr {q' q : Str} (h : jsToLower q' = jsToLower q) :
    (jsTrim q' = [] ↔ jsTrim q = []) := by
  rw [jsTrim_eq_nil_iff, jsTrim_eq_nil_iff]
  exact allWs_congr q' q h

/-! ### Lemmas about sets-as-lists and the build folds -/

theorem mem_jsAdd {α : Type} [DecidableEq α] {l : List α} {x y : α} :
    x ∈ jsAdd l y ↔ x ∈ l ∨ x = y := by
  unfold jsAdd
  split
  · rename_i h
    constructor
    · exact Or.inl
    · rintro (hx | rfl)
      · exact hx
      · exact h
  · simp [List.mem_append]

theorem nodup_jsAdd {α : Type} [DecidableEq α] {l : List α} {y : α}
    (h : l.Nodup) : (jsAdd l y).Nodup := by
  unfold jsAdd
  split
  · exact h
  · rename_i hy
    simp [List.nodup_append, h, hy]

theorem nodup_foldl_pres {α β : Type} {f : List α → β → List α}
    (hf : ∀ acc b, acc.Nodup → (f acc b).Nodup) :
    ∀ (l : List β) (acc : List α), acc.Nodup → (l.foldl f acc).Nodup
  | [], _, h => h
  | b :: t, acc, h => nodup_foldl_pres hf t (f acc b) (hf acc b h)

theorem mem_ttiAdd {tti : Str → List Int} {term : Str} {idx : Int} {u : Str}
    {x : Int} : x ∈ ttiAdd tti term idx u ↔ x ∈ tti u ∨ (u = term ∧ x = idx) := by
  unfold ttiAdd
  split
  · rename_i h
    subst h
    rw [mem_jsAdd]
    tauto
  · rename_i h
    tauto

/-- Membership after the innermost index loop of the search result collection
(the map variant and the refactored variant add every index). -/
theorem mem_foldl_jsAdd {l acc : List Int} {x : Int} :
    x ∈ l.foldl (fun acc idx => jsAdd acc idx) acc ↔ x ∈ acc ∨ x ∈ l := by
  induction l generalizing acc with
  | nil => simp
  | cons i t ih => rw [List.foldl_cons, ih, mem_jsAdd]; simp; tauto

/-- Membership after the innermost index loop of the legacy search result
collection, which filters out the sentinel `-1`. -/
theorem mem_foldl_jsAddNe {l acc : List Int} {x : Int} :
    x ∈ l.foldl (fun acc idx => if idx ≠ -1 then jsAdd acc idx else acc) acc ↔
      x ∈ acc ∨ (x ∈ l ∧ x ≠ -1) := by
  induction l generalizing acc with
  | nil => simp
  | cons i t ih =>
      rw [List.foldl_cons, ih]
      by_cases hi : i = (-1 : Int)
      · subst hi; simp; tauto
      · rw [if_pos hi, mem_jsAdd]
        simp only [List.mem_cons]
        constructor
        · rintro ((hx | rfl) | h)
          · exact Or.inl hx
          · exact Or.inr ⟨Or.inl rfl, hi⟩
          · exact Or.inr ⟨Or.inr h.1, h.2⟩
        · rintro (hx | ⟨(rfl | hm), hne⟩)
          · exact Or.inl (Or.inl hx)
          · exact Or.inl (Or.inr rfl)
          · exact Or.inr ⟨hm, hne⟩

/-- Membership after the per-set term loop of the search result collection. -/
theorem mem_termFold {tti : Str → List Int} {set : List Str}
    {acc : List Int} {x : Int} :
    x ∈ set.foldl (fun acc term =>
        (tti term).foldl (fun acc idx => jsAdd acc idx) acc) acc ↔
      x ∈ acc ∨ ∃ term ∈ set, x ∈ tti term := by
  induction set generalizing acc with
  | nil => simp
  | cons term rest ih =>
      rw [List.foldl_cons, ih, mem_foldl_jsAdd]
      simp only [List.mem_cons]
      constructor
      · rintro ((hx | hx) | ⟨t, ht, hx⟩)
        · exact Or.inl hx
        · exact Or.inr ⟨term, Or.inl rfl, hx⟩
        · exact Or.inr ⟨t, Or.inr ht, hx⟩
      · rintro (hx | ⟨t, (rfl | ht), hx⟩)
        · exact Or.inl (Or.inl hx)
        · exact Or.inl (Or.inr hx)
        · exact Or.inr ⟨t, ht, hx⟩

/-- Membership after the per-set term loop of the legacy search result
collection (with the sentinel filter). -/
theorem mem_termFoldNe {tti : Str → List Int} {set : List Str}
    {acc : List Int} {x : Int} :
    x ∈ set.foldl (fun acc term =>
        (tti term).foldl (fun acc idx => if idx ≠ -1 then jsAdd acc idx else acc) acc) acc ↔
      x ∈ acc ∨ ∃ term ∈ set, x ∈ tti term ∧ x ≠ -1 := by
  induction set generalizing acc with
  | nil => simp
  | cons term rest ih =>
      rw [List.foldl_cons, ih, mem_foldl_jsAddNe]
      simp only [List.mem_cons]
      constructor
      · rintro ((hx | hx) | ⟨t, ht, hx⟩)
        · exact Or.inl hx
        · exact Or.inr ⟨term, Or.inl rfl, hx⟩
        · exact Or.inr ⟨t, Or.inr ht, hx⟩
      · rintro (hx | ⟨t, (rfl | ht), hx⟩)
        · exact Or.inl (Or.inl hx)
        · exact Or.inl (Or.inr hx)
        · exact Or.inr ⟨t, ht, hx⟩

/-- Membership after the outer set loop of the search result collection. -/
theorem mem_setFold {tti : Str → List Int} {sets : List (List Str)}
    {acc : List Int} {x : Int} :
    x ∈ sets.foldl (fun acc set =>
        set.foldl (fun acc term =>
          (tti term).foldl (fun acc idx => jsAdd acc idx) acc) acc) acc ↔
      x ∈ acc ∨ ∃ set ∈ sets, ∃ term ∈ set, x ∈ tti term := by
  induction sets generalizing acc with
  | nil => simp
  | cons set rest ih =>
      rw [List.foldl_cons, ih, mem_termFold]
      simp only [List.mem_cons]
      constructor
      · rintro ((hx | hx) | ⟨s, hs, hx⟩)
        · exact Or.inl hx
        · exact Or.inr ⟨set, Or.inl rfl, hx⟩
        · exact Or.inr ⟨s, Or.inr hs, hx⟩
      · rintro (hx | ⟨s, (rfl | hs), hx⟩)
        · exact Or.inl (Or.inl hx)
        · exact Or.inl (Or.inr hx)
        · exact Or.inr ⟨s, hs, hx⟩

theorem foldl_invariant {α β : Type} {f : α → β → α} (P : α → Prop)
    (h : ∀ a b, P a → P (f a b)) : ∀ (l : List β) (a : α), P a → P (l.foldl f a)
  | [], _, ha => ha
  | b :: t, a, ha => foldl_invariant P h t (f a b) (h a b ha)

/-- Membership after the outer set loop of the legacy search result
collection. -/
theorem mem_setFoldNe {tti : Str → List Int} {sets : List (List Str)}
    {acc : List Int} {x : Int} :
    x ∈ sets.foldl (fun acc set =>
        set.foldl (fun acc term =>
          (tti term).foldl (fun acc idx => if idx ≠ -1 then jsAdd acc idx else acc) acc) acc) acc ↔
      x ∈ acc ∨ ∃ set ∈ sets, ∃ term ∈ set, x ∈ tti term ∧ x ≠ -1 := by
  induction sets generalizing acc with
  | nil => simp
  | cons set rest ih =>
      rw [List.foldl_cons, ih, mem_termFoldNe]
      simp only [List.mem_cons]
      constructor
      · rintro ((hx | hx) | ⟨s, hs, hx⟩)
        · exact Or.inl hx
        · exact Or.inr ⟨set, Or.inl rfl, hx⟩
        · exact Or.inr ⟨s, Or.inr hs, hx⟩
      · rintro (hx | ⟨s, (rfl | hs), hx⟩)
        · exact Or.inl (Or.inl hx)
        · exact Or.inl (Or.inr hx)
        · exact Or.inr ⟨s, hs, hx⟩

/-! ### Characterizing the built term-to-positions tables -/

theorem mapStepTerms_mem {text : Str} {idx : Int} {set : List Str}
    {tti : Str → List Int} {u : Str} {x : Int} :
    x ∈ (set.foldl (fun tti term =>
        if jsIncludes (jsToLower text) (jsToLower term) then ttiAdd tti term idx
        else tti) tti) u ↔
      x ∈ tti u ∨ (u ∈ set ∧ jsIncludes (jsToLower text) (jsToLower u) = true ∧ x = idx) := by
  induction set generalizing tti with
  | nil => simp
  | cons term rest ih =>
      rw [List.foldl_cons, ih]
      by_cases hc : jsIncludes (jsToLower text) (jsToLower term) = true
      · rw [if_pos hc]
        simp only [List.mem_cons, mem_ttiAdd]
        constructor
        · rintro ((hx | ⟨rfl, rfl⟩) | ⟨hm, hcond, rfl⟩)
          · exact Or.inl hx
          · exact Or.inr ⟨Or.inl rfl, hc, rfl⟩
          · exact Or.inr ⟨Or.inr hm, hcond, rfl⟩
        · rintro (hx | ⟨(rfl | hm), hcond, rfl⟩)
          · exact Or.inl (Or.inl hx)
          · exact Or.inl (Or.inr ⟨rfl, rfl⟩)
          · exact Or.inr ⟨hm, hcond, rfl⟩
      · rw [if_neg hc]
        simp only [List.mem_cons]
        constructor
        · rintro (hx | ⟨hm, hcond, rfl⟩)
          · exact Or.inl hx
          · exact Or.inr ⟨Or.inr hm, hcond, rfl⟩
        · rintro (hx | ⟨(rfl | hm), hcond, rfl⟩)
          · exact Or.inl hx
          · exact absurd hcond hc
          · exact Or.inr ⟨hm, hcond, rfl⟩

theorem mapStepDoc_mem {sets : List (List Str)} {tti : Str → List Int}
    {idx : Int} {text : Str} {u : Str} {x : Int} :
    x ∈ mapStepDoc sets tti idx text u ↔
      x ∈ tti u ∨ ((∃ set ∈ sets, u ∈ set) ∧
        jsIncludes (jsToLower text) (jsToLower u) = true ∧ x = idx) := by
  unfold mapStepDoc
  induction sets generalizing tti with
  | nil => simp
  | cons set rest ih =>
      rw [List.foldl_cons, ih, mapStepTerms_mem]
      simp only [List.mem_cons]
      constructor
      · rintro ((hx | ⟨hm, hcond, rfl⟩) | ⟨⟨s, hs, hm⟩, hcond, rfl⟩)
        · exact Or.inl hx
        · exact Or.inr ⟨⟨set, Or.inl rfl, hm⟩, hcond, rfl⟩
        · exact Or.inr ⟨⟨s, Or.inr hs, hm⟩, hcond, rfl⟩
      · rintro (hx | ⟨⟨s, (rfl | hs), hm⟩, hcond, rfl⟩)
        · exact Or.inl (Or.inl hx)
        · exact Or.inl (Or.inr ⟨hm, hcond, rfl⟩)
        · exact Or.inr ⟨⟨s, hs, hm⟩, hcond, rfl⟩

theorem mapBuildDocs_mem {sets : List (List Str)} :
    ∀ {docs : List Str} {i0 : Int} {tti : Str → List Int} {u : Str} {x : Int},
    x ∈ mapBuildDocs sets docs i0 tti u ↔
      x ∈ tti u ∨ ∃ j : Nat, ∃ h : j < docs.length, x = i0 + j ∧
        (∃ set ∈ sets, u ∈ set) ∧
        jsIncludes (jsToLower (docs.get ⟨j, h⟩)) (jsToLower u) = true := by
  intro docs
  induction docs with
  | nil => intro i0 tti u x; simp [mapBuildDocs]
  | cons text rest ih =>
      intro i0 tti u x
      rw [show mapBuildDocs sets (text :: rest) i0 tti =
        mapBuildDocs sets rest (i0 + 1) (mapStepDoc sets tti i0 text) from rfl]
      rw [ih, mapStepDoc_mem]
      constructor
      · rintro ((hx | ⟨hsets, hcond, rfl⟩) | ⟨j, hj, rfl, hsets, hcond⟩)
        · exact Or.inl hx
        · exact Or.inr ⟨0, by simp, by simp, hsets, hcond⟩
        · refine Or.inr ⟨j + 1, by simpa using hj, by push_cast; ring, hsets, ?_⟩
          simpa using hcond
      · rintro (hx | ⟨j, hj, rfl, hsets, hcond⟩)
        · exact Or.inl (Or.inl hx)
        · match j with
          | 0 => exact Or.inl (Or.inr ⟨hsets, by simpa using hcond, by simp⟩)
          | j + 1 =>
              refine Or.inr ⟨j, by simpa using hj, by push_cast; ring, hsets, ?_⟩
              simpa using hcond

/-- Membership in the term table of a built `BilingualMap`: exactly the
document positions whose lower-cased text contains the lower-cased term,
for terms belonging to some semantic set. -/
theorem mapBuild_tti_mem {data : List Str} {sets : List (List Str)}
    {u : Str} {x : Int} :
    x ∈ (mapBuild data sets).termToTextIndices u ↔
      ∃ j : Nat, ∃ h : j < data.length, x = (j : Int) ∧
        (∃ set ∈ sets, u ∈ set) ∧
        jsIncludes (jsToLower (data.get ⟨j, h⟩)) (jsToLower u) = true := by
  rw [show (mapBuild data sets).termToTextIndices =
    mapBuildDocs sets data 0 (fun _ => []) from rfl, mapBuildDocs_mem]
  simp

/-- Projection: the legacy per-document build step touches the term table the
same way the map variant does. -/
theorem rootStepDoc_tti (sets : List (List Str)) (st : RootState) (idx : Int)
    (text : Str) :
    (rootStepDoc sets st idx text).termToTextIndices =
      mapStepDoc sets st.termToTextIndices idx text := by
  unfold rootStepDoc mapStepDoc
  refine List.foldl_hom (fun st => st.termToTextIndices) _ _ sets st ?_ |>.symm
  intro st set
  refine List.foldl_hom (fun st => st.termToTextIndices) _ _ set st ?_
  intro st term
  by_cases hc : jsIncludes (jsToLower text) (jsToLower term) = true
  · rw [if_pos hc, if_pos hc]; rfl
  · rw [if_neg hc, if_neg hc]

theorem rootStepDoc_data (sets : List (List Str)) (st : RootState) (idx : Int)
    (text : Str) :
    (rootStepDoc sets st idx text).data = st.data ∧
      (rootStepDoc sets st idx text).semanticSets = st.semanticSets := by
  unfold rootStepDoc
  refine foldl_invariant
    (fun s => s.data = st.data ∧ s.semanticSets = st.semanticSets) ?_ sets st ⟨rfl, rfl⟩
  intro a set ha
  refine foldl_invariant
    (fun s => s.data = st.data ∧ s.semanticSets = st.semanticSets) ?_ set a ha
  intro a term ha
  by_cases hc : jsIncludes (jsToLower text) (jsToLower term) = true
  · rw [if_pos hc]; exact ha
  · rw [if_neg hc]; exact ha

theorem rootBuildDocs_tti (sets : List (List Str)) :
    ∀ (docs : List Str) (idx : Int) (st : RootState),
    (rootBuildDocs sets docs idx st).termToTextIndices =
      mapBuildDocs sets docs idx st.termToTextIndices
  | [], _, _ => rfl
  | text :: rest, idx, st => by
      rw [show rootBuildDocs sets (text :: rest) idx st =
        rootBuildDocs sets rest (idx + 1) (rootStepDoc sets st idx text) from rfl]
      rw [rootBuildDocs_tti sets rest (idx + 1) _, rootStepDoc_tti]
      rfl

theorem rootBuildDocs_data (sets : List (List Str)) :
    ∀ (docs : List Str) (idx : Int) (st : RootState),
    (rootBuildDocs sets docs idx st).data = st.data ∧
      (rootBuildDocs sets docs idx st).semanticSets = st.semanticSets
  | [], _, _ => ⟨rfl, rfl⟩
  | text :: rest, idx, st => by
      rw [show rootBuildDocs sets (text :: rest) idx st =
        rootBuildDocs sets rest (idx + 1) (rootStepDoc sets st idx text) from rfl]
      have h1 := rootBuildDocs_data sets rest (idx + 1) (rootStepDoc sets st idx text)
      have h2 := rootStepDoc_data sets st idx text
      exact ⟨h1.1.trans h2.1, h1.2.trans h2.2⟩

/-- Projection: the second legacy build loop adds `-1` to the table entry of
every semantic-set term. -/
theorem rootInsertAll_tti (sets : List (List Str)) (st : RootState) :
    (rootInsertAll sets st).termToTextIndices =
      sets.foldl (fun tti set =>
        set.foldl (fun tti term => ttiAdd tti term (-1)) tti)
        st.termToTextIndices := by
  unfold rootInsertAll
  refine List.foldl_hom (fun st => st.termToTextIndices) _ _ sets st ?_ |>.symm
  intro st set
  refine List.foldl_hom (fun st => st.termToTextIndices) _ _ set st ?_
  intro st term
  rfl

theorem rootInsertAll_data (sets : List (List Str)) (st : RootState) :
    (rootInsertAll sets st).data = st.data ∧
      (rootInsertAll sets st).semanticSets = st.semanticSets := by
  unfold rootInsertAll
  refine foldl_invariant
    (fun s => s.data = st.data ∧ s.semanticSets = st.semanticSets) ?_ sets st ⟨rfl, rfl⟩
  intro a set ha
  refine foldl_invariant
    (fun s => s.data = st.data ∧ s.semanticSets = st.semanticSets) ?_ set a ha
  intro a term ha
  exact ha

theorem mem_phase2Fold {sets : List (List Str)} {tti : Str → List Int}
    {u : Str} {x : Int} :
    x ∈ sets.foldl (fun tti set =>
        set.foldl (fun tti term => ttiAdd tti term (-1)) tti) tti u ↔
      x ∈ tti u ∨ (x = -1 ∧ ∃ set ∈ sets, u ∈ set) := by
  induction sets generalizing tti with
  | nil => simp
  | cons set rest ih =>
      rw [List.foldl_cons, ih]
      have hset : ∀ (tti : Str → List Int),
          x ∈ set.foldl (fun tti term => ttiAdd tti term (-1)) tti u ↔
            x ∈ tti u ∨ (x = -1 ∧ u ∈ set) := by
        intro tti0
        induction set generalizing tti0 with
        | nil => simp
        | cons term trest tih =>
            rw [List.foldl_cons, tih]
            simp only [mem_ttiAdd, List.mem_cons]
            constructor
            · rintro ((hx | ⟨rfl, rfl⟩) | ⟨rfl, hm⟩)
              · exact Or.inl hx
              · exact Or.inr ⟨rfl, Or.inl rfl⟩
              · exact Or.inr ⟨rfl, Or.inr hm⟩
            · rintro (hx | ⟨rfl, (rfl | hm)⟩)
              · exact Or.inl (Or.inl hx)
              · exact Or.inl (Or.inr ⟨rfl, rfl⟩)
              · exact Or.inr ⟨rfl, hm⟩
      rw [hset]
      simp only [List.mem_cons]
      constructor
      · rintro ((hx | ⟨rfl, hm⟩) | ⟨rfl, s, hs, hm⟩)
        · exact Or.inl hx
        · exact Or.inr ⟨rfl, set, Or.inl rfl, hm⟩
        · exact Or.inr ⟨rfl, s, Or.inr hs, hm⟩
      · rintro (hx | ⟨rfl, s, (rfl | hs), hm⟩)
        · exact Or.inl (Or.inl hx)
        · exact Or.inl (Or.inr ⟨rfl, hm⟩)
        · exact Or.inr ⟨rfl, s, hs, hm⟩

/-- Membership in the term table of a built legacy `BilingualTrie`: the
document positions whose lower-cased text contains the lower-cased term
(as in the map variant), plus the sentinel `-1` for every semantic-set
term. -/
theorem rootBuild_tti_mem {data : List Str} {sets : List (List Str)}
    {u : Str} {x : Int} :
    x ∈ (rootBuild data sets).termToTextIndices u ↔
      (∃ j : Nat, ∃ h : j < data.length, x = (j : Int) ∧
        (∃ set ∈ sets, u ∈ set) ∧
        jsIncludes (jsToLower (data.get ⟨j, h⟩)) (jsToLower u) = true) ∨
      (x = -1 ∧ ∃ set ∈ sets, u ∈ set) := by
  unfold rootBuild
  rw [rootInsertAll_tti, mem_phase2Fold, rootBuildDocs_tti, mapBuildDocs_mem]
  simp only [List.not_mem_nil, false_or]
  constructor
  · rintro (⟨j, hj, rfl, hsets, hcond⟩ | h)
    · exact Or.inl ⟨j, hj, by simp, hsets, hcond⟩
    · exact Or.inr h
  · rintro (⟨j, hj, rfl, hsets, hcond⟩ | h)
    · exact Or.inl ⟨j, hj, by simp, hsets, hcond⟩
    · exact Or.inr h

theorem rootBuild_data (data : List Str) (sets : List (List Str)) :
    (rootBuild data sets).data = data ∧
      (rootBuild data sets).semanticSets = sets := by
  unfold rootBuild
  have h1 := rootInsertAll_data sets
    (rootBuildDocs sets data 0
      { root := createNode, termToTextIndices := fun _ => [],
        data := data, semanticSets := sets })
  have h2 := rootBuildDocs_data sets data 0
    { root := createNode, termToTextIndices := fun _ => [],
      data := data, semanticSets := sets }
  exact ⟨h1.1.trans h2.1, h1.2.trans h2.2⟩

theorem newInsertTerm_tti (st : NewState) (term : Str) (idx : Int) :
    (st.insertTerm term idx).termToTextIndices =
      if term = [] then st.termToTextIndices
      else ttiAdd st.termToTextIndices term idx := by
  unfold NewState.insertTerm
  split
  · rfl
  · rfl

theorem newStepTerms_mem {idx : Int} {set : List Str} {tti : Str → List Int}
    {u : Str} {x : Int} :
    x ∈ (set.foldl (fun tti term =>
        if term = [] then tti else ttiAdd tti term idx) tti) u ↔
      x ∈ tti u ∨ (u ∈ set ∧ u ≠ [] ∧ x = idx) := by
  induction set generalizing tti with
  | nil => simp
  | cons term rest ih =>
      rw [List.foldl_cons, ih]
      by_cases hc : term = ([] : Str)
      · subst hc
        rw [if_pos rfl]
        simp only [List.mem_cons]
        constructor
        · rintro (hx | ⟨hm, hne, rfl⟩)
          · exact Or.inl hx
          · exact Or.inr ⟨Or.inr hm, hne, rfl⟩
        · rintro (hx | ⟨(rfl | hm), hne, rfl⟩)
          · exact Or.inl hx
          · exact absurd rfl hne
          · exact Or.inr ⟨hm, hne, rfl⟩
      · rw [if_neg hc]
        simp only [List.mem_cons, mem_ttiAdd]
        constructor
        · rintro ((hx | ⟨rfl, rfl⟩) | ⟨hm, hne, rfl⟩)
          · exact Or.inl hx
          · exact Or.inr ⟨Or.inl rfl, hc, rfl⟩
          · exact Or.inr ⟨Or.inr hm, hne, rfl⟩
        · rintro (hx | ⟨(rfl | hm), hne, rfl⟩)
          · exact Or.inl (Or.inl hx)
          · exact Or.inl (Or.inr ⟨rfl, rfl⟩)
          · exact Or.inr ⟨hm, hne, rfl⟩

theorem newStepDoc_tti (sets : List (List Str)) (st : NewState) (idx : Int)
    (text : Str) :
    (newStepDoc sets st idx text).termToTextIndices =
      sets.foldl (fun tti set =>
        if set.any (fun term => jsIncludes (jsToLower text) term) then
          set.foldl (fun tti term =>
            if term = [] then tti else ttiAdd tti term idx) tti
        else tti) st.termToTextIndices := by
  unfold newStepDoc
  refine List.foldl_hom (fun st => st.termToTextIndices) _ _ sets st ?_ |>.symm
  intro st set
  by_cases hc : set.any (fun term => jsIncludes (jsToLower text) term) = true
  · rw [if_pos hc, if_pos hc]
    refine List.foldl_hom (fun st => st.termToTextIndices) _ _ set st ?_
    intro st term
    exact (newInsertTerm_tti st term idx).symm
  · rw [if_neg hc, if_neg hc]

theorem newStepDoc_mem {sets : List (List Str)} {st : NewState} {idx : Int}
    {text : Str} {u : Str} {x : Int} :
    x ∈ (newStepDoc sets st idx text).termToTextIndices u ↔
      x ∈ st.termToTextIndices u ∨
        ∃ set ∈ sets, set.any (fun term => jsIncludes (jsToLower text) term) = true ∧
          u ∈ set ∧ u ≠ [] ∧ x = idx := by
  rw [newStepDoc_tti]
  induction sets generalizing st with
  | nil => simp
  | cons set rest ih =>
      rw [List.foldl_cons]
      by_cases hc : set.any (fun term => jsIncludes (jsToLower text) term) = true
      · rw [if_pos hc]
        have hmid := @newStepTerms_mem idx set st.termToTextIndices u x
        set st2 : NewState :=
          { root := st.root
            termToTextIndices := set.foldl (fun tti term =>
              if term = [] then tti else ttiAdd tti term idx) st.termToTextIndices
            data := st.data
            semanticSets := st.semanticSets } with hst2
        have := @ih st2
        rw [show set.foldl (fun tti term =>
            if term = [] then tti else ttiAdd tti term idx) st.termToTextIndices =
          st2.termToTextIndices from rfl, this, hmid]
        simp only [List.mem_cons]
        constructor
        · rintro ((hx | ⟨hm, hne, rfl⟩) | ⟨s, hs, hany, hm, hne, rfl⟩)
          · exact Or.inl hx
          · exact Or.inr ⟨set, Or.inl rfl, hc, hm, hne, rfl⟩
          · exact Or.inr ⟨s, Or.inr hs, hany, hm, hne, rfl⟩
        · rintro (hx | ⟨s, (rfl | hs), hany, hm, hne, rfl⟩)
          · exact Or.inl (Or.inl hx)
          · exact Or.inl (Or.inr ⟨hm, hne, rfl⟩)
          · exact Or.inr ⟨s, hs, hany, hm, hne, rfl⟩
      · rw [if_neg hc]
        rw [@ih st]
        simp only [List.mem_cons]
        constructor
        · rintro (hx | ⟨s, hs, hany, hm, hne, rfl⟩)
          · exact Or.inl hx
          · exact Or.inr ⟨s, Or.inr hs, hany, hm, hne, rfl⟩
        · rintro (hx | ⟨s, (rfl | hs), hany, hm, hne, rfl⟩)
          · exact Or.inl hx
          · exact absurd hany hc
          · exact Or.inr ⟨s, hs, hany, hm, hne, rfl⟩

theorem newBuildDocs_mem {sets : List (List Str)} :
    ∀ {docs : List Str} {i0 : Int} {st : NewState} {u : Str} {x : Int},
    x ∈ (newBuildDocs sets docs i0 st).termToTextIndices u ↔
      x ∈ st.termToTextIndices u ∨ ∃ j : Nat, ∃ h : j < docs.length, x = i0 + j ∧
        ∃ set ∈ sets,
          set.any (fun term => jsIncludes (jsToLower (docs.get ⟨j, h⟩)) term) = true ∧
          u ∈ set ∧ u ≠ [] := by
  intro docs
  induction docs with
  | nil => intro i0 st u x; simp [newBuildDocs]
  | cons text rest ih =>
      intro i0 st u x
      rw [show newBuildDocs sets (text :: rest) i0 st =
        newBuildDocs sets rest (i0 + 1) (newStepDoc sets st i0 text) from rfl]
      rw [ih, newStepDoc_mem]
      constructor
      · rintro ((hx | ⟨s, hs, hany, hm, hne, rfl⟩) | ⟨j, hj, rfl, s, hs, hany, hm, hne⟩)
        · exact Or.inl hx
        · exact Or.inr ⟨0, by simp, by simp, s, hs, by simpa using hany, hm, hne⟩
        · refine Or.inr ⟨j + 1, by simpa using hj, by push_cast; ring, s, hs, ?_, hm, hne⟩
          simpa using hany
      · rintro (hx | ⟨j, hj, rfl, s, hs, hany, hm, hne⟩)
        · exact Or.inl (Or.inl hx)
        · match j with
          | 0 => exact Or.inl (Or.inr ⟨s, hs, by simpa using hany, hm, hne, by simp⟩)
          | j + 1 =>
              refine Or.inr ⟨j, by simpa using hj, by push_cast; ring, s, hs, ?_, hm, hne⟩
              simpa using hany

/-- Membership in the term table of a built refactored `BilingualTrie`: a
(lower-cased, non-empty) term is registered against exactly the positions of
documents matched by SOME term of one of its (lower-cased) sets — the whole
equivalence class is registered, not just the matching term. -/
theorem newBuild_tti_mem {data : List Str} {rawSets : List (List Str)}
    {u : Str} {x : Int} :
    x ∈ (newBuild data rawSets).termToTextIndices u ↔
      ∃ j : Nat, ∃ h : j < data.length, x = (j : Int) ∧
        ∃ set ∈ rawSets.map (fun set => set.map jsToLower),
          set.any (fun term => jsIncludes (jsToLower (data.get ⟨j, h⟩)) term) = true ∧
          u ∈ set ∧ u ≠ [] := by
  unfold newBuild
  rw [newBuildDocs_mem]
  simp only [List.not_mem_nil, false_or]
  constructor
  · rintro ⟨j, hj, rfl, h⟩
    exact ⟨j, hj, by simp, h⟩
  · rintro ⟨j, hj, rfl, h⟩
    exact ⟨j, hj, by simp, h⟩

theorem newStepDoc_data (sets : List (List Str)) (st : NewState) (idx : Int)
    (text : Str) :
    (newStepDoc sets st idx text).data = st.data ∧
      (newStepDoc sets st idx text).semanticSets = st.semanticSets := by
  unfold newStepDoc
  refine foldl_invariant
    (fun s => s.data = st.data ∧ s.semanticSets = st.semanticSets) ?_ sets st ⟨rfl, rfl⟩
  intro a set ha
  by_cases hc : set.any (fun term => jsIncludes (jsToLower text) term) = true
  · rw [if_pos hc]
    refine foldl_invariant
      (fun s => s.data = st.data ∧ s.semanticSets = st.semanticSets) ?_ set a ha
    intro a term ha
    unfold NewState.insertTerm
    split
    · exact ha
    · exact ha
  · rw [if_neg hc]; exact ha

theorem newBuildDocs_data (sets : List (List Str)) :
    ∀ (docs : List Str) (idx : Int) (st : NewState),
    (newBuildDocs sets docs idx st).data = st.data ∧
      (newBuildDocs sets docs idx st).semanticSets = st.semanticSets
  | [], _, _ => ⟨rfl, rfl⟩
  | text :: rest, idx, st => by
      rw [show newBuildDocs sets (text :: rest) idx st =
        newBuildDocs sets rest (idx + 1) (newStepDoc sets st idx text) from rfl]
      have h1 := newBuildDocs_data sets rest (idx + 1) (newStepDoc sets st idx text)
      have h2 := newStepDoc_data sets st idx text
      exact ⟨h1.1.trans h2.1, h1.2.trans h2.2⟩

theorem newBuild_data (data : List Str) (rawSets : List (List Str)) :
    (newBuild data rawSets).data = data ∧
      (newBuild data rawSets).semanticSets =
        rawSets.map (fun set => set.map jsToLower) := by
  unfold newBuild
  exact newBuildDocs_data _ data 0 _

/-! ### Walk lemmas for the legacy trie -/

theorem lookupC_upsertC_self :
    ∀ (ch : JChildren) (c : Char) (t : JTrie), lookupC (upsertC ch c t) c = some t
  | .nil, c, t => by simp [upsertC, lookupC]
  | .cons c' t' rest, c, t => by
      unfold upsertC
      by_cases h : c' = c
      · rw [if_pos h]; simp [lookupC]
      · rw [if_neg h]
        unfold lookupC
        rw [if_neg (fun hh => h hh.symm)]
        exact lookupC_upsertC_self rest c t

theorem lookupC_upsertC_ne :
    ∀ (ch : JChildren) (c : Char) (t : JTrie) (c'' : Char), c'' ≠ c →
      lookupC (upsertC ch c t) c'' = lookupC ch c''
  | .nil, c, t, c'', hne => by simp [upsertC, lookupC, hne]
  | .cons c' t' rest, c, t, c'', hne => by
      unfold upsertC
      by_cases h : c' = c
      · subst h
        rw [if_pos rfl]
        unfold lookupC
        rw [if_neg hne, if_neg hne]
      · rw [if_neg h]
        unfold lookupC
        by_cases h2 : c'' = c'
        · rw [if_pos h2, if_pos h2]
        · rw [if_neg h2, if_neg h2]
          exact lookupC_upsertC_ne rest c t c'' hne

theorem walkT_addIdx_cons (n : JTrie) (i : Int) (c : Char) (r : Str) :
    walkT (addIdx n i) (c :: r) = walkT n (c :: r) := by
  cases n; rfl

/-- Walking after an insertion succeeds exactly for paths that are prefixes of
the inserted (lower-cased) term or were already present. -/
theorem walkT_insertT_ne_none :
    ∀ (p : Str) (n : JTrie) (lw orig : Str) (idx : Int),
    walkT (insertT n lw orig idx) p ≠ none ↔
      p.isPrefixOf lw = true ∨ walkT n p ≠ none
  | [], n, lw, orig, idx => by
      cases n with
      | mk b ct ti ch =>
          cases lw with
          | nil => simp [insertT, walkT, List.isPrefixOf]
          | cons c0 lr => simp [insertT, walkT, List.isPrefixOf]
  | c :: pr, .mk b ct ti ch, lw, orig, idx => by
      cases lw with
      | nil =>
          show walkT (.mk true (some orig) ti ch) (c :: pr) ≠ none ↔ _
          have hpre : (c :: pr).isPrefixOf ([] : Str) = false := rfl
          rw [hpre]
          simp only [Bool.false_eq_true, false_or]
          unfold walkT
          rfl
      | cons c0 lr =>
          show walkT (.mk b ct ti
            (upsertC ch c0 (insertT (addIdx ((lookupC ch c0).getD createNode) idx) lr orig idx)))
            (c :: pr) ≠ none ↔ _
          by_cases hc : c = c0
          · subst hc
            have hl : lookupC (upsertC ch c
                (insertT (addIdx ((lookupC ch c).getD createNode) idx) lr orig idx)) c =
                some (insertT (addIdx ((lookupC ch c).getD createNode) idx) lr orig idx) :=
              lookupC_upsertC_self _ _ _
            unfold walkT
            simp only [JTrie.children, hl]
            rw [walkT_insertT_ne_none pr _ lr orig idx]
            have hpre : (c :: pr).isPrefixOf (c :: lr) = pr.isPrefixOf lr := by
              simp [List.isPrefixOf]
            rw [hpre]
            cases hbase : lookupC ch c with
            | some m =>
                simp only [hbase, Option.getD_some]
                have haw : walkT (addIdx m idx) pr ≠ none ↔ walkT m pr ≠ none := by
                  cases pr with
                  | nil => cases m; simp [walkT, addIdx]
                  | cons c1 r => rw [walkT_addIdx_cons]
                rw [haw]
            | none =>
                simp only [hbase, Option.getD_none]
                have haw : walkT (addIdx createNode idx) pr ≠ none ↔ pr = [] := by
                  cases pr with
                  | nil => simp [walkT, addIdx, createNode]
                  | cons c1 r => simp [walkT, addIdx, createNode, jsAdd, lookupC, JTrie.children]
                rw [haw]
                constructor
                · rintro (hp | rfl)
                  · exact Or.inl hp
                  · exact Or.inl (by simp [List.isPrefixOf])
                · rintro (hp | hnone)
                  · exact Or.inl hp
                  · exact absurd rfl hnone
          · have hl : lookupC (upsertC ch c0
                (insertT (addIdx ((lookupC ch c0).getD createNode) idx) lr orig idx)) c =
                lookupC ch c :=
              lookupC_upsertC_ne _ _ _ _ hc
            have hpre : (c :: pr).isPrefixOf (c0 :: lr) = false := by
              simp [List.isPrefixOf, hc]
            rw [hpre]
            simp only [Bool.false_eq_true, false_or]
            unfold walkT
            simp only [JTrie.children, hl]

theorem foldl_invariant_mem {α β : Type} {f : α → β → α} (P : α → Prop) :
    ∀ (l : List β) (a : α), (∀ a b, b ∈ l → P a → P (f a b)) → P a → P (l.foldl f a)
  | [], _, _, ha => ha
  | b :: t, a, h, ha =>
      foldl_invariant_mem P t (f a b)
        (fun a' b' hb' => h a' b' (List.mem_cons_of_mem _ hb'))
        (h a b (List.mem_cons_self _ _) ha)

theorem walkT_insertT_mono {n : JTrie} {lw orig : Str} {idx : Int} {p : Str}
    (h : walkT n p ≠ none) : walkT (insertT n lw orig idx) p ≠ none :=
  (walkT_insertT_ne_none p n lw orig idx).mpr (Or.inr h)

theorem walkT_insertT_of_isPrefixOf {n : JTrie} {lw orig : Str} {idx : Int} {p : Str}
    (h : p.isPrefixOf lw = true) : walkT (insertT n lw orig idx) p ≠ none :=
  (walkT_insertT_ne_none p n lw orig idx).mpr (Or.inl h)

theorem walkT_createNode {p : Str} (h : walkT createNode p ≠ none) : p = [] := by
  cases p with
  | nil => rfl
  | cons c r => simp [walkT, createNode, lookupC, JTrie.children] at h

theorem walkBounded_insertTerm {sets : List (List Str)} {st : RootState}
    {term : Str} {idx : Int} {set : List Str} (hset : set ∈ sets)
    (hterm : term ∈ set) (h : WalkBounded sets st.root) :
    WalkBounded sets (st.insertTerm term idx).root := by
  intro p hp
  rw [show (st.insertTerm term idx).root =
    insertT st.root (jsToLower term) term idx from rfl] at hp
  rcases (walkT_insertT_ne_none p st.root (jsToLower term) term idx).mp hp with hpre | hold
  · exact Or.inr ⟨set, hset, term, hterm, hpre⟩
  · exact h p hold

theorem walkBounded_rootStepDoc {sets : List (List Str)} {st : RootState}
    {idx : Int} {text : Str} (h : WalkBounded sets st.root) :
    WalkBounded sets (rootStepDoc sets st idx text).root := by
  unfold rootStepDoc
  refine foldl_invariant_mem (fun s => WalkBounded sets s.root) sets st ?_ h
  intro a set hset ha
  refine foldl_invariant_mem (fun s => WalkBounded sets s.root) set a ?_ ha
  intro a term hterm ha
  by_cases hc : jsIncludes (jsToLower text) (jsToLower term) = true
  · rw [if_pos hc]
    exact walkBounded_insertTerm hset hterm ha
  · rw [if_neg hc]
    exact ha

theorem walkBounded_rootBuildDocs {sets : List (List Str)} :
    ∀ {docs : List Str} {idx : Int} {st : RootState},
    WalkBounded sets st.root → WalkBounded sets (rootBuildDocs sets docs idx st).root := by
  intro docs
  induction docs with
  | nil => intro idx st h; exact h
  | cons text rest ih =>
      intro idx st h
      exact ih (walkBounded_rootStepDoc h)

theorem walkBounded_rootInsertAll {sets : List (List Str)} {st : RootState}
    (h : WalkBounded sets st.root) :
    WalkBounded sets (rootInsertAll sets st).root := by
  unfold rootInsertAll
  refine foldl_invariant_mem (fun s => WalkBounded sets s.root) sets st ?_ h
  intro a set hset ha
  refine foldl_invariant_mem (fun s => WalkBounded sets s.root) set a ?_ ha
  intro a term hterm ha
  exact walkBounded_insertTerm hset hterm ha

theorem walk_mono_insertAll_inner {p : Str} :
    ∀ (set : List Str) (st : RootState), walkT st.root p ≠ none →
      walkT ((set.foldl (fun st term => st.insertTerm term (-1)) st)).root p ≠ none := by
  intro set
  induction set with
  | nil => intro st h; exact h
  | cons term rest ih =>
      intro st h
      exact ih _ (walkT_insertT_mono h)

theorem walk_present_insertAll_inner {p : Str} {term : Str} :
    ∀ (set : List Str) (st : RootState), term ∈ set →
      p.isPrefixOf (jsToLower term) = true →
      walkT ((set.foldl (fun st term => st.insertTerm term (-1)) st)).root p ≠ none := by
  intro set
  induction set with
  | nil => intro st h; exact absurd h (List.not_mem_nil _)
  | cons t' rest ih =>
      intro st hmem hpre
      rcases List.mem_cons.mp hmem with rfl | hmem
      · rw [List.foldl_cons]
        exact walk_mono_insertAll_inner rest _ (walkT_insertT_of_isPrefixOf hpre)
      · rw [List.foldl_cons]
        exact ih _ hmem hpre

theorem walk_present_rootInsertAll {sets : List (List Str)} {st : RootState}
    {set : List Str} {term : Str} {p : Str} (hset : set ∈ sets) (hterm : term ∈ set)
    (hpre : p.isPrefixOf (jsToLower term) = true) :
    walkT (rootInsertAll sets st).root p ≠ none := by
  unfold rootInsertAll
  induction sets generalizing st with
  | nil => exact absurd hset (List.not_mem_nil _)
  | cons s rest ih =>
      rcases List.mem_cons.mp hset with rfl | hset
      · rw [List.foldl_cons]
        refine foldl_invariant
          (fun (st2 : RootState) => walkT st2.root p ≠ none) ?_ rest _ ?_
        · intro a s2 ha
          exact walk_mono_insertAll_inner s2 a ha
        · exact walk_present_insertAll_inner set st hterm hpre
      · rw [List.foldl_cons]
        exact ih hset

/-- Path characterization of the built legacy trie: a non-empty query path is
walkable exactly when it is a prefix of the lower-casing of some semantic-set
term. -/
theorem rootBuild_walk_iff {data : List Str} {sets : List (List Str)} {p : Str} :
    walkT (rootBuild data sets).root p ≠ none ↔
      p = [] ∨ ∃ set ∈ sets, ∃ term ∈ set, p.isPrefixOf (jsToLower term) = true := by
  constructor
  · intro h
    have hb : WalkBounded sets (rootBuildDocs sets data 0
        { root := createNode, termToTextIndices := fun _ => [],
          data := data, semanticSets := sets }).root :=
      walkBounded_rootBuildDocs (fun p2 hp2 => Or.inl (walkT_createNode hp2))
    exact walkBounded_rootInsertAll hb p h
  · rintro (rfl | ⟨set, hset, term, hterm, hpre⟩)
    · simp [walkT]
    · exact walk_present_rootInsertAll hset hterm hpre

/-! ### Equality of sorted duplicate-free collections -/

theorem insertionSort_eq_of_mem_iff {l1 l2 : List Int} (h1 : l1.Nodup)
    (h2 : l2.Nodup) (h : ∀ x, x ∈ l1 ↔ x ∈ l2) :
    l1.insertionSort (· ≤ ·) = l2.insertionSort (· ≤ ·) := by
  have hperm : l1.Perm l2 := (List.perm_ext_iff_of_nodup h1 h2).mpr h
  refine List.eq_of_perm_of_sorted ?_
    (List.sorted_insertionSort _ _) (List.sorted_insertionSort _ _)
  exact (List.perm_insertionSort _ _).trans
    (hperm.trans (List.perm_insertionSort _ _).symm)

theorem nodup_foldl_jsAdd {l acc : List Int} (h : acc.Nodup) :
    (l.foldl (fun acc idx => jsAdd acc idx) acc).Nodup :=
  nodup_foldl_pres (fun _ _ ha => nodup_jsAdd ha) l acc h

theorem nodup_foldl_jsAddNe {l acc : List Int} (h : acc.Nodup) :
    (l.foldl (fun acc idx => if idx ≠ -1 then jsAdd acc idx else acc) acc).Nodup := by
  refine nodup_foldl_pres ?_ l acc h
  intro a b ha
  by_cases hb : b = (-1 : Int)
  · subst hb; simpa using ha
  · rw [if_pos hb]; exact nodup_jsAdd ha

theorem nodup_setFold {tti : Str → List Int} {sets : List (List Str)}
    {acc : List Int} (h : acc.Nodup) :
    (sets.foldl (fun acc set =>
      set.foldl (fun acc term =>
        (tti term).foldl (fun acc idx => jsAdd acc idx) acc) acc) acc).Nodup := by
  refine nodup_foldl_pres ?_ sets acc h
  intro a set ha
  refine nodup_foldl_pres ?_ set a ha
  intro a term ha
  exact nodup_foldl_jsAdd ha

theorem nodup_setFoldNe {tti : Str → List Int} {sets : List (List Str)}
    {acc : List Int} (h : acc.Nodup) :
    (sets.foldl (fun acc set =>
      set.foldl (fun acc term =>
        (tti term).foldl (fun acc idx => if idx ≠ -1 then jsAdd acc idx else acc) acc) acc) acc).Nodup := by
  refine nodup_foldl_pres ?_ sets acc h
  intro a set ha
  refine nodup_foldl_pres ?_ set a ha
  intro a term ha
  exact nodup_foldl_jsAddNe ha

/-- The legacy table entries, with the sentinel filtered out, coincide with
the map-variant table entries. -/
theorem rootTti_filter_eq_mapTti {data : List Str} {sets : List (List Str)}
    {u : Str} {x : Int} :
    (x ∈ (rootBuild data sets).termToTextIndices u ∧ x ≠ -1) ↔
      x ∈ (mapBuild data sets).termToTextIndices u := by
  rw [rootBuild_tti_mem, mapBuild_tti_mem]
  constructor
  · rintro ⟨(h | ⟨rfl, _⟩), hne⟩
    · exact h
    · exact absurd rfl hne
  · rintro ⟨j, hj, rfl, hrest⟩
    exact ⟨Or.inl ⟨j, hj, rfl, hrest⟩, by omega⟩

theorem searchInTrie_of_walk_none {st : RootState} {q : Str} {acc : List Int}
    (h : walkT st.root q = none) : st.searchInTrie q acc = acc := by
  unfold RootState.searchInTrie
  rw [h]

theorem jsTrim_nil : jsTrim ([] : Str) = [] := rfl

/-- Claim C2: for every fixed pair of documents and semantic sets and every
query string, the legacy trie variant's `search` and the map variant's
`search` produce identical (sorted, duplicate-free) result sequences. -/
theorem c2_trie_map_equivalence (data : List Str) (sets : List (List Str))
    (q : Str) : (rootBuild data sets).search q = (mapBuild data sets).search q := by
  unfold RootState.search MapState.search
  by_cases hq : jsTrim q = []
  · rw [if_pos hq, if_pos hq]
  · rw [if_neg hq, if_neg hq]
    simp only []
    have hrs : (rootBuild data sets).semanticSets = sets := (rootBuild_data data sets).2
    have hrd : (rootBuild data sets).data = data := (rootBuild_data data sets).1
    have hms : (mapBuild data sets).semanticSets = sets := rfl
    have hmd : (mapBuild data sets).data = data := rfl
    rw [hrs, hrd, hms, hmd]
    have hqne : q ≠ [] := by
      intro h
      exact hq (h ▸ jsTrim_nil)
    have hlqne : jsToLower q ≠ [] := by
      intro h
      exact hqne ((jsToLower_eq_nil_iff q).mp h)
    by_cases hm : sets.filter
        (fun set => set.any (fun term => (jsToLower q).isPrefixOf (jsToLower term))) = []
    · rw [if_pos hm, hm]
      have hwalk : walkT (rootBuild data sets).root (jsToLower q) = none := by
        by_contra hc
        rcases rootBuild_walk_iff.mp hc with h0 | ⟨set, hset, term, hterm, hpre⟩
        · exact hlqne h0
        · have hnone := List.filter_eq_nil_iff.mp hm set hset
          exact hnone (List.any_eq_true.mpr ⟨term, hterm, hpre⟩)
      rw [searchInTrie_of_walk_none hwalk]
      simp
    · rw [if_neg hm]
      have hsort : ((sets.filter
            (fun set => set.any (fun term => (jsToLower q).isPrefixOf (jsToLower term)))).foldl
          (fun acc set => set.foldl (fun acc term =>
            ((rootBuild data sets).termToTextIndices term).foldl
              (fun acc idx => if idx ≠ -1 then jsAdd acc idx else acc) acc) acc)
          []).insertionSort (· ≤ ·) =
        ((sets.filter
            (fun set => set.any (fun term => (jsToLower q).isPrefixOf (jsToLower term)))).foldl
          (fun acc set => set.foldl (fun acc term =>
            ((mapBuild data sets).termToTextIndices term).foldl
              (fun acc idx => jsAdd acc idx) acc) acc)
          []).insertionSort (· ≤ ·) := by
        refine insertionSort_eq_of_mem_iff (nodup_setFoldNe List.nodup_nil)
          (nodup_setFold List.nodup_nil) ?_
        intro x
        rw [mem_setFoldNe, mem_setFold]
        simp only [List.not_mem_nil, false_or]
        constructor
        · rintro ⟨set, hset, term, hterm, hx, hne⟩
          exact ⟨set, hset, term, hterm, rootTti_filter_eq_mapTti.mp ⟨hx, hne⟩⟩
        · rintro ⟨set, hset, term, hterm, hx⟩
          obtain ⟨h1, h2⟩ := rootTti_filter_eq_mapTti.mpr hx
          exact ⟨set, hset, term, hterm, h1, h2⟩
      rw [hsort]

theorem subnodeAt_nil {n m : JTrie} (h : SubnodeAt n [] m) : m = n := by
  cases h
  rfl

theorem subnodeAt_cons {n m : JTrie} {c : Char} {p : Str}
    (h : SubnodeAt n (c :: p) m) :
    ∃ k, (c, k) ∈ n.children.toList ∧ SubnodeAt k p m := by
  cases h with
  | step hk hsub => exact ⟨_, hk, hsub⟩

theorem lookupC_mem_toList :
    ∀ {ch : JChildren} {c : Char} {k : JTrie}, lookupC ch c = some k →
      (c, k) ∈ ch.toList
  | .nil, c, k => by intro h; simp [lookupC] at h
  | .cons c' t' rest, c, k => by
      intro h
      unfold lookupC at h
      by_cases hc : c = c'
      · rw [if_pos hc] at h
        subst hc
        simp only [Option.some.injEq] at h
        subst h
        simp [JChildren.toList]
      · rw [if_neg hc] at h
        simp only [JChildren.toList, List.mem_cons]
        exact Or.inr (lookupC_mem_toList h)

theorem walkT_subnodeAt :
    ∀ {p : Str} {n m : JTrie}, walkT n p = some m → SubnodeAt n p m
  | [], n, m => by
      intro h
      simp only [walkT, Option.some.injEq] at h
      subst h
      exact .refl n
  | c :: pr, n, m => by
      intro h
      unfold walkT at h
      cases hl : lookupC n.children c with
      | none => rw [hl] at h; exact absurd h (by simp)
      | some k =>
          rw [hl] at h
          exact .step (lookupC_mem_toList hl) (walkT_subnodeAt h)

theorem subnodeAt_append {n m m2 : JTrie} {p p2 : Str}
    (h1 : SubnodeAt n p m) (h2 : SubnodeAt m p2 m2) :
    SubnodeAt n (p ++ p2) m2 := by
  induction h1 with
  | refl => exact h2
  | step hk hsub ih => exact .step hk (ih h2)

theorem mem_toList_upsertC :
    ∀ {ch : JChildren} {c0 : Char} {x : JTrie} {c : Char} {k : JTrie},
      (c, k) ∈ (upsertC ch c0 x).toList →
      (c = c0 ∧ k = x) ∨ (c, k) ∈ ch.toList
  | .nil, c0, x, c, k => by
      intro h
      simp only [upsertC, JChildren.toList, List.mem_singleton] at h
      exact Or.inl ⟨congrArg Prod.fst h, congrArg Prod.snd h⟩
  | .cons c' t' rest, c0, x, c, k => by
      intro h
      unfold upsertC at h
      by_cases hc : c' = c0
      · rw [if_pos hc] at h
        simp only [JChildren.toList, List.mem_cons] at h
        rcases h with h | h
        · exact Or.inl ⟨congrArg Prod.fst h, congrArg Prod.snd h⟩
        · subst hc
          exact Or.inr (by simp [JChildren.toList, List.mem_cons]; exact Or.inr h)
      · rw [if_neg hc] at h
        simp only [JChildren.toList, List.mem_cons] at h
        rcases h with h | h
        · exact Or.inr (by simp [JChildren.toList]; exact Or.inl (by
            exact ⟨congrArg Prod.fst h, congrArg Prod.snd h⟩))
        · rcases mem_toList_upsertC h with h2 | h2
          · exact Or.inl h2
          · exact Or.inr (by simp [JChildren.toList, List.mem_cons]; exact Or.inr h2)

theorem subnodeAt_addIdx {n : JTrie} {i : Int} {p : Str} {m : JTrie}
    (h : SubnodeAt (addIdx n i) p m) :
    (p = [] ∧ m = addIdx n i) ∨ SubnodeAt n p m := by
  cases h with
  | refl => exact Or.inl ⟨rfl, rfl⟩
  | step hk hsub =>
      refine Or.inr (.step ?_ hsub)
      cases n
      exact hk

set_option maxHeartbeats 1000000 in
mutual
/-- What `collectCompletions` collects: the accumulator plus the non-empty
canonical terms stored at `isEnd` descendants, at any depth. -/
theorem mem_collectCompletions :
    ∀ (n : JTrie) (acc : List Str) (t : Str),
    t ∈ collectCompletions n acc ↔
      t ∈ acc ∨ ∃ p m, SubnodeAt n p m ∧ m.isEnd = true ∧
        m.completeTerm = some t ∧ t ≠ []
  | .mk b ct ti ch, acc, t => by
      rw [show collectCompletions (.mk b ct ti ch) acc =
        collectCompletionsC ch
          (if b then
            match ct with
            | some u => if u = [] then acc else jsAdd acc u
            | none => acc
          else acc) from rfl]
      rw [mem_collectCompletionsC ch _ t]
      have hacc1 : t ∈ (if b then
            match ct with
            | some u => if u = [] then acc else jsAdd acc u
            | none => acc
          else acc) ↔ t ∈ acc ∨ (b = true ∧ ct = some t ∧ t ≠ []) := by
        cases b with
        | false => simp
        | true =>
            cases ct with
            | none => simp
            | some u =>
                by_cases hu : u = []
                · subst hu
                  simp only [if_pos rfl, if_true]
                  constructor
                  · exact Or.inl
                  · rintro (h | ⟨_, h, hne⟩)
                    · exact h
                    · rw [Option.some.injEq] at h
                      exact absurd h.symm hne
                · simp only [if_neg hu, if_true, mem_jsAdd]
                  constructor
                  · rintro (h | rfl)
                    · exact Or.inl h
                    · exact Or.inr ⟨by trivial, rfl, hu⟩
                  · rintro (h | ⟨_, hsome, hne⟩)
                    · exact Or.inl h
                    · rw [Option.some.injEq] at hsome
                      subst hsome
                      exact Or.inr rfl
      have hdecomp : (∃ p m, SubnodeAt (JTrie.mk b ct ti ch) p m ∧
            m.isEnd = true ∧ m.completeTerm = some t ∧ t ≠ []) ↔
          (b = true ∧ ct = some t ∧ t ≠ []) ∨
            (∃ c k, (c, k) ∈ JChildren.toList ch ∧ ∃ p m, SubnodeAt k p m ∧
              m.isEnd = true ∧ m.completeTerm = some t ∧ t ≠ []) := by
        constructor
        · rintro ⟨p, m, hsub, he, hct, hne⟩
          cases p with
          | nil =>
              have hm := subnodeAt_nil hsub
              subst hm
              exact Or.inl ⟨he, hct, hne⟩
          | cons c p2 =>
              obtain ⟨k, hk, hsub2⟩ := subnodeAt_cons hsub
              exact Or.inr ⟨c, k, hk, p2, m, hsub2, he, hct, hne⟩
        · rintro (⟨hb, hct, hne⟩ | ⟨c, k, hk, p, m, hsub, he, hct, hne⟩)
          · exact ⟨[], JTrie.mk b ct ti ch, .refl _, hb, hct, hne⟩
          · exact ⟨c :: p, m, .step hk hsub, he, hct, hne⟩
      rw [hacc1, hdecomp]
      constructor
      · rintro ((h | h) | h)
        · exact Or.inl h
        · exact Or.inr (Or.inl h)
        · exact Or.inr (Or.inr h)
      · rintro (h | (h | h))
        · exact Or.inl (Or.inl h)
        · exact Or.inl (Or.inr h)
        · exact Or.inr h
theorem mem_collectCompletionsC :
    ∀ (ch : JChildren) (acc : List Str) (t : Str),
    t ∈ collectCompletionsC ch acc ↔
      t ∈ acc ∨ ∃ c k, (c, k) ∈ ch.toList ∧ ∃ p m, SubnodeAt k p m ∧
        m.isEnd = true ∧ m.completeTerm = some t ∧ t ≠ []
  | .nil, acc, t => by
      simp [collectCompletionsC, JChildren.toList]
  | .cons c k rest, acc, t => by
      rw [show collectCompletionsC (.cons c k rest) acc =
        collectCompletionsC rest (collectCompletions k acc) from rfl]
      rw [mem_collectCompletionsC rest _ t, mem_collectCompletions k acc t]
      simp only [JChildren.toList, List.mem_cons]
      constructor
      · rintro ((hacc | ⟨p, m, hsub, he, hct, hne⟩) | ⟨c', k', hk', rest2⟩)
        · exact Or.inl hacc
        · exact Or.inr ⟨c, k, Or.inl rfl, p, m, hsub, he, hct, hne⟩
        · exact Or.inr ⟨c', k', Or.inr hk', rest2⟩
      · rintro (hacc | ⟨c', k', (heq | hk'), rest2⟩)
        · exact Or.inl (Or.inl hacc)
        · obtain ⟨p, m, hsub, he, hct, hne⟩ := rest2
          have hc : c' = c := congrArg Prod.fst heq
          have hk : k' = k := congrArg Prod.snd heq
          subst hc; subst hk
          exact Or.inl (Or.inr ⟨p, m, hsub, he, hct, hne⟩)
        · exact Or.inr ⟨c', k', hk', rest2⟩
end

/-- Effect of one insertion on the terminal nodes of the trie: a terminal
descendant after `insertT` is either the freshly marked node at the inserted
path, or an already-terminal node at the same path with its canonical term
unchanged. -/
theorem subnodeAt_insertT :
    ∀ (p : Str) (n : JTrie) (lw orig : Str) (idx : Int) (m2 : JTrie),
    SubnodeAt (insertT n lw orig idx) p m2 → m2.isEnd = true →
    (p = lw ∧ m2.completeTerm = some orig) ∨
    (∃ m, SubnodeAt n p m ∧ m.isEnd = true ∧ m2.completeTerm = m.completeTerm)
  | [], .mk b ct ti ch, lw, orig, idx, m2 => by
      intro hsub hend
      cases lw with
      | nil =>
          have hm := subnodeAt_nil hsub
          subst hm
          exact Or.inl ⟨rfl, rfl⟩
      | cons c0 lr =>
          have hm := subnodeAt_nil hsub
          subst hm
          exact Or.inr ⟨.mk b ct ti ch, .refl _, hend, rfl⟩
  | c :: pr, .mk b ct ti ch, lw, orig, idx, m2 => by
      intro hsub hend
      cases lw with
      | nil =>
          obtain ⟨k, hk, hsub2⟩ := subnodeAt_cons hsub
          exact Or.inr ⟨m2, .step hk hsub2, hend, rfl⟩
      | cons c0 lr =>
          obtain ⟨k, hk, hsub2⟩ := subnodeAt_cons hsub
          rcases mem_toList_upsertC hk with ⟨rfl, rfl⟩ | hold
          · rcases subnodeAt_insertT pr _ lr orig idx m2 hsub2 hend with
              ⟨rfl, hct⟩ | ⟨m, hsubm, hendm, hctm⟩
            · exact Or.inl ⟨rfl, hct⟩
            · rcases subnodeAt_addIdx hsubm with ⟨rfl, rfl⟩ | hsubbase
              · cases hbase : lookupC ch c with
                | some mb =>
                    rw [hbase] at hendm hctm
                    refine Or.inr ⟨mb, .step (lookupC_mem_toList hbase) (.refl _), ?_, ?_⟩
                    · cases mb
                      exact hendm
                    · cases mb
                      exact hctm
                | none =>
                    rw [hbase] at hendm
                    exact absurd hendm (by
                      simp [addIdx, createNode, JTrie.isEnd, jsAdd, Option.getD])
              · cases hbase : lookupC ch c with
                | some mb =>
                    rw [hbase] at hsubbase
                    exact Or.inr ⟨m, .step (lookupC_mem_toList hbase) hsubbase, hendm, hctm⟩
                | none =>
                    rw [hbase] at hsubbase
                    cases pr with
                    | nil =>
                        have hme := subnodeAt_nil hsubbase
                        subst hme
                        exact absurd hendm (by simp [createNode, JTrie.isEnd, Option.getD])
                    | cons c1 p2 =>
                        obtain ⟨k2, hk2, _⟩ := subnodeAt_cons hsubbase
                        exact absurd hk2 (by
                          simp [createNode, JTrie.children, JChildren.toList, Option.getD])
          · exact Or.inr ⟨m2, .step hold hsub2, hend, rfl⟩

theorem terminalPathInv_createNode : TerminalPathInv createNode := by
  intro p m hsub hend
  cases p with
  | nil =>
      have hm := subnodeAt_nil hsub
      subst hm
      exact absurd hend (by simp [createNode, JTrie.isEnd])
  | cons c p2 =>
      obtain ⟨k, hk, _⟩ := subnodeAt_cons hsub
      exact absurd hk (by simp [createNode, JTrie.children, JChildren.toList])

theorem terminalPathInv_insertTerm {st : RootState} {term : Str} {idx : Int}
    (h : TerminalPathInv st.root) : TerminalPathInv (st.insertTerm term idx).root := by
  intro p m hsub hend
  rcases subnodeAt_insertT p st.root (jsToLower term) term idx m hsub hend with
    ⟨rfl, hct⟩ | ⟨m0, hsub0, hend0, hct⟩
  · exact ⟨term, hct, rfl⟩
  · obtain ⟨o, ho, hlo⟩ := h p m0 hsub0 hend0
    exact ⟨o, hct.trans ho, hlo⟩

theorem terminalPathInv_rootBuild (data : List Str) (sets : List (List Str)) :
    TerminalPathInv (rootBuild data sets).root := by
  unfold rootBuild
  refine foldl_invariant (fun (s : RootState) => TerminalPathInv s.root) ?_ sets _ ?_
  · intro a set ha
    refine foldl_invariant (fun (s : RootState) => TerminalPathInv s.root) ?_ set a ha
    intro a term ha
    exact terminalPathInv_insertTerm ha
  · have hdocs : ∀ (docs : List Str) (idx : Int) (st : RootState),
        TerminalPathInv st.root →
        TerminalPathInv (rootBuildDocs sets docs idx st).root := by
      intro docs
      induction docs with
      | nil => intro idx st h; exact h
      | cons text rest ih =>
          intro idx st h
          refine ih _ _ ?_
          unfold rootStepDoc
          refine foldl_invariant (fun (s : RootState) => TerminalPathInv s.root) ?_ sets st h
          intro a set ha
          refine foldl_invariant (fun (s : RootState) => TerminalPathInv s.root) ?_ set a ha
          intro a term ha
          by_cases hc : jsIncludes (jsToLower text) (jsToLower term) = true
          · rw [if_pos hc]
            exact terminalPathInv_insertTerm ha
          · rw [if_neg hc]
            exact ha
    refine hdocs data 0 _ ?_
    exact terminalPathInv_createNode

/-! ### Claim theorems -/

/-- Claim C7: an empty or all-whitespace query makes both `search` and
`getAutocompleteSuggestions` of the legacy trie return an empty result (the
guard fires before any trie access; the functions are total, so no error is
raised); in particular the empty-string query returns no completions. -/
theorem c7_empty_query (data : List Str) (sets : List (List Str)) (q : Str)
    (h : jsTrim q = []) :
    (rootBuild data sets).search q = [] ∧
      (rootBuild data sets).getAutocompleteSuggestions q = [] := by
  constructor
  · unfold RootState.search
    rw [if_pos h]
  · unfold RootState.getAutocompleteSuggestions
    rw [if_pos h]

theorem c7_witness :
    (rootBuild [] []).search [' '] = [] ∧
      (rootBuild [] []).getAutocompleteSuggestions [' '] = [] :=
  c7_empty_query [] [] [' '] (by decide)

/-- Claim C9: the query operations are pure functions of the index state and
the query: in state-passing form they leave every field of the state
unchanged (the method bodies assign only to locally created sets), and a
second identical call returns the same result. -/
theorem c9_query_purity (rst : RootState) (nst : NewState) (q : Str) :
    ((rst.searchOp q).1 = rst ∧
      ((rst.searchOp q).1.searchOp q).2 = (rst.searchOp q).2) ∧
    ((rst.getAutocompleteSuggestionsOp q).1 = rst ∧
      ((rst.getAutocompleteSuggestionsOp q).1.getAutocompleteSuggestionsOp q).2 =
        (rst.getAutocompleteSuggestionsOp q).2) ∧
    ((nst.searchOp q).1 = nst ∧
      ((nst.searchOp q).1.searchOp q).2 = (nst.searchOp q).2) ∧
    ((nst.getAutocompleteSuggestionsOp q).1 = nst ∧
      ((nst.getAutocompleteSuggestionsOp q).1.getAutocompleteSuggestionsOp q).2 =
        (nst.getAutocompleteSuggestionsOp q).2) :=
  ⟨⟨rfl, rfl⟩, ⟨rfl, rfl⟩, ⟨rfl, rfl⟩, ⟨rfl, rfl⟩⟩

/-- Claim C3 counterexample: with no documents at all, the semantic-set term
"zzz" matches zero documents, yet after the build it is present in the index
(its `termToTextIndices` entry is non-empty — it holds the sentinel) and it IS
returned by autocomplete for the query "z".  This refutes the claimed
"present iff member of a set AND substring of a document" invariant and the
zero-match exclusion. -/
theorem c3_counterexample :
    (rootBuild [] [[['z','z','z']]]).termToTextIndices ['z','z','z'] ≠ [] ∧
      ['z','z','z'] ∈ (rootBuild [] [[['z','z','z']]]).getAutocompleteSuggestions ['z'] := by
  decide

/-- Claim C3 (amended): after the legacy build, a term is present in the index
(non-empty `termToTextIndices` entry) if and only if it belongs to at least
one semantic set; every semantic-set term is inserted with the sentinel `-1`
regardless of whether any document matches it, so zero-match terms are NOT
excluded. -/
theorem c3_amended (data : List Str) (sets : List (List Str)) (t : Str) :
    ((rootBuild data sets).termToTextIndices t ≠ [] ↔ ∃ set ∈ sets, t ∈ set) ∧
      (∀ set ∈ sets, t ∈ set →
        (-1 : Int) ∈ (rootBuild data sets).termToTextIndices t) := by
  constructor
  · constructor
    · intro hne
      obtain ⟨x, hx⟩ := List.exists_mem_of_ne_nil _ hne
      rcases rootBuild_tti_mem.mp hx with ⟨j, hj, rfl, hsets, _⟩ | ⟨_, hsets⟩
      · exact hsets
      · exact hsets
    · rintro ⟨set, hset, hmem⟩
      intro h
      have hm : (-1 : Int) ∈ (rootBuild data sets).termToTextIndices t :=
        rootBuild_tti_mem.mpr (Or.inr ⟨rfl, set, hset, hmem⟩)
      rw [h] at hm
      exact absurd hm (List.not_mem_nil _)
  · intro set hset hmem
    exact rootBuild_tti_mem.mpr (Or.inr ⟨rfl, set, hset, hmem⟩)

theorem c3_witness :
    (-1 : Int) ∈ (rootBuild [['a']] [[['b']]]).termToTextIndices ['b'] :=
  (c3_amended [['a']] [[['b']]] ['b']).2 [['b']] (by decide) (by decide)

/-- Claim C8 counterexample: legacy construction over a semantic set holding a
non-string term throws (`term.toLowerCase()` on a non-string), so construction
is NOT error-free on malformed terms. -/
theorem c8_counterexample : rootBuildJ [] [[(none : JTerm)]] = .error () := rfl

/-- Claim C8 (amended): the refactored `insertTerm` skips a non-string or
empty-string term silently (no state change, no error); however a non-string
term in the raw table makes the refactored loader drop the WHOLE table (the
thrown `TypeError` is caught and `semanticSets` is reset to `[]`), and legacy
construction throws on a non-string term (see the counterexample). -/
theorem c8_amended :
    (∀ (st : NewState) (t : JTerm) (i : Int), t = none ∨ t = some [] →
      st.insertTermJ t i = st) ∧
    (∀ raw : List (List JTerm), (∃ set ∈ raw, ∃ t ∈ set, t = none) →
      newLoadSets raw = []) := by
  constructor
  · rintro st t i (rfl | rfl)
    · rfl
    · show st.insertTerm [] i = st
      unfold NewState.insertTerm
      rw [if_pos rfl]
  · rintro raw ⟨set, hset, t, ht, rfl⟩
    unfold newLoadSets
    rw [if_pos ?_]
    exact List.any_eq_true.mpr ⟨set, hset, List.any_eq_true.mpr ⟨none, ht, rfl⟩⟩

theorem c8_witness :
    (newBuild [] []).insertTermJ (some []) 0 = newBuild [] [] ∧
      newLoadSets [[(none : JTerm)]] = [] :=
  ⟨c8_amended.1 (newBuild [] []) (some []) 0 (Or.inr rfl),
    c8_amended.2 [[none]] ⟨[none], by decide, none, by decide, rfl⟩⟩

/-- Claim C6 counterexample: the refactored `getAutocompleteSuggestions` does
not normalize its argument, so the upper-cased variant of a query yields a
different (empty) result than the lower-case query. -/
theorem c6_counterexample :
    (newBuild [['a','b','c']] [[['a','b','c']]]).getAutocompleteSuggestions
        (jsToUpper ['a','b','c']) = [] ∧
      (newBuild [['a','b','c']] [[['a','b','c']]]).getAutocompleteSuggestions
        ['a','b','c'] = [['a','b','c']] := by
  decide

/-- Claim C6 (amended): `search` is case-insensitive — any two queries with
the same lower-casing (in particular `q` and `q.toUpperCase()`, by
`jsToLower_jsToUpper`) give identical results; for autocomplete this holds
only after normalization in the refactored variant (its
`getAutocompleteSuggestions` does not lower-case, `search` normalizes before
calling it), while the legacy `getAutocompleteSuggestions` lower-cases itself
and is case-insensitive. -/
theorem c6_amended (data : List Str) (sets : List (List Str)) (q q' : Str)
    (h : jsToLower q' = jsToLower q) :
    (newBuild data sets).search q' = (newBuild data sets).search q ∧
    (newBuild data sets).getAutocompleteSuggestions (jsToLower q') =
      (newBuild data sets).getAutocompleteSuggestions (jsToLower q) ∧
    (rootBuild data sets).getAutocompleteSuggestions q' =
      (rootBuild data sets).getAutocompleteSuggestions q := by
  have htrim := jsTrim_nil_congr h
  refine ⟨?_, by rw [h], ?_⟩
  · unfold NewState.search
    by_cases hq : jsTrim q = []
    · rw [if_pos hq, if_pos (htrim.mpr hq)]
    · rw [if_neg hq, if_neg (fun hc => hq (htrim.mp hc))]
      simp only []
      rw [h]
  · unfold RootState.getAutocompleteSuggestions
    by_cases hq : jsTrim q = []
    · rw [if_pos hq, if_pos (htrim.mpr hq)]
    · rw [if_neg hq, if_neg (fun hc => hq (htrim.mp hc))]
      rw [h]

theorem c6_witness :
    (newBuild [['a','b']] [[['a','b']]]).search (jsToUpper ['a','b']) =
        (newBuild [['a','b']] [[['a','b']]]).search ['a','b'] ∧
      (newBuild [['a','b']] [[['a','b']]]).getAutocompleteSuggestions
          (jsToLower (jsToUpper ['a','b'])) =
        (newBuild [['a','b']] [[['a','b']]]).getAutocompleteSuggestions
          (jsToLower ['a','b']) ∧
      (rootBuild [['a','b']] [[['a','b']]]).getAutocompleteSuggestions
          (jsToUpper ['a','b']) =
        (rootBuild [['a','b']] [[['a','b']]]).getAutocompleteSuggestions ['a','b'] :=
  c6_amended [['a','b']] [[['a','b']]] ['a','b'] (jsToUpper ['a','b'])
    (jsToLower_jsToUpper ['a','b'])

/-- Claim C4 counterexample: for the all-whitespace query " " the guard in
`getAutocompleteSuggestions` returns `[]` even though the walk for " "
succeeds and the subtree below it holds the terminal term " a" — so the
result is NOT "exactly the terms stored in the subtree at the query node"
for such queries. -/
theorem c4_counterexample :
    (rootBuild [] [[[' ','a']]]).getAutocompleteSuggestions [' '] = [] ∧
      (rootBuild [] [[[' ','a']]]).findCompletions (jsToLower [' ']) [] = [[' ','a']] := by
  decide

/-- Claim C4 (amended): for a query that survives the whitespace guard,
`getAutocompleteSuggestions` lower-cases it and walks the trie one code point
at a time; if the walk fails the result is empty (no error), and otherwise a
term is returned exactly when it is the canonical term stored at some
terminal node of the subtree rooted at the query node, at any depth. -/
theorem c4_amended (data : List Str) (sets : List (List Str)) (q : Str)
    (hq : jsTrim q ≠ []) :
    (walkT (rootBuild data sets).root (jsToLower q) = none →
        (rootBuild data sets).getAutocompleteSuggestions q = []) ∧
      (∀ n, walkT (rootBuild data sets).root (jsToLower q) = some n →
        ∀ t, t ∈ (rootBuild data sets).getAutocompleteSuggestions q ↔
          ∃ m, Subnode n m ∧ m.isEnd = true ∧ m.completeTerm = some t) := by
  constructor
  · intro hw
    unfold RootState.getAutocompleteSuggestions RootState.findCompletions
    rw [if_neg hq, hw]
  · intro n hw t
    unfold RootState.getAutocompleteSuggestions RootState.findCompletions
    rw [if_neg hq, hw]
    show t ∈ collectCompletions n [] ↔ _
    rw [mem_collectCompletions n [] t]
    simp only [List.not_mem_nil, false_or]
    constructor
    · rintro ⟨p, m, hsub, hend, hct, hne⟩
      exact ⟨m, ⟨p, hsub⟩, hend, hct⟩
    · rintro ⟨m, ⟨p, hsub⟩, hend, hct⟩
      refine ⟨p, m, hsub, hend, hct, ?_⟩
      intro hte
      subst hte
      have hsubroot : SubnodeAt (rootBuild data sets).root (jsToLower q ++ p) m :=
        subnodeAt_append (walkT_subnodeAt hw) hsub
      obtain ⟨o, ho, hlo⟩ := terminalPathInv_rootBuild data sets _ _ hsubroot hend
      rw [hct] at ho
      rw [Option.some.injEq] at ho
      subst ho
      have hnil : jsToLower q = [] := by
        have hlen := congrArg List.length hlo
        simp [jsToLower] at hlen
        have : q.length = 0 := by omega
        simp [jsToLower, List.length_eq_zero.mp this]
      exact hq (by
        have hqnil : q = [] := (jsToLower_eq_nil_iff q).mp hnil
        subst hqnil
        rfl)

theorem c4_witness : (rootBuild [] [[['b']]]).getAutocompleteSuggestions ['c'] = [] :=
  (c4_amended [] [[['b']]] ['c'] (by decide)).1 rfl

/-- Claim C1 counterexample: take documents = ["x"] and the semantic set
S = {"x","ab"}.  Term "x" of S occurs in document 0 and the empty query is a
prefix of the other term "ab", yet `search("")` returns `[]` (whitespace
guard), not document 0.  Also, with S = {"x",""} the empty term of S is never
registered by the refactored build even though S matches document 0. -/
theorem c1_counterexample :
    (([] : Str).isPrefixOf (jsToLower ['a','b']) = true) ∧
      jsIncludes (jsToLower ['x']) (jsToLower ['x']) = true ∧
      (mapBuild [['x']] [[['x'], ['a','b']]]).search [] = [] ∧
      (newBuild [['x']] [[['x'], []]]).termToTextIndices [] = [] := by
  decide

/-- Claim C1 (amended): if some term `t` of a semantic set `S` occurs
case-insensitively in the document at position `i`, then every term of `S`
with a non-empty lower-casing is registered against position `i` by the
refactored trie build; and every search whose query survives the whitespace
guard and whose lower-casing is a prefix of the lower-casing of any term of
`S` returns that document (map variant `search`). -/
theorem c1_amended (data : List Str) (sets : List (List Str)) (i : Nat)
    (hi : i < data.length) (set : List Str) (hset : set ∈ sets)
    (t : Str) (ht : t ∈ set)
    (hmatch : jsIncludes (jsToLower (data.get ⟨i, hi⟩)) (jsToLower t) = true)
    (q : Str) (hq : jsTrim q ≠ [])
    (tq : Str) (htq : tq ∈ set)
    (hpre : (jsToLower q).isPrefixOf (jsToLower tq) = true) :
    (∀ u ∈ set, jsToLower u ≠ [] →
      ((i : Int)) ∈ (newBuild data sets).termToTextIndices (jsToLower u)) ∧
    some (data.get ⟨i, hi⟩) ∈ (mapBuild data sets).search q := by
  constructor
  · intro u hu hune
    refine newBuild_tti_mem.mpr ⟨i, hi, rfl, set.map jsToLower,
      List.mem_map_of_mem _ hset, ?_, List.mem_map_of_mem _ hu, hune⟩
    exact List.any_eq_true.mpr ⟨jsToLower t, List.mem_map_of_mem _ ht, hmatch⟩
  · unfold MapState.search
    rw [if_neg hq]
    simp only []
    refine List.mem_map.mpr ⟨(i : Int), ?_, ?_⟩
    · rw [List.mem_insertionSort]
      refine mem_setFold.mpr (Or.inr ⟨set, ?_, t, ht, ?_⟩)
      · exact List.mem_filter.mpr ⟨hset, List.any_eq_true.mpr ⟨tq, htq, hpre⟩⟩
      · exact mapBuild_tti_mem.mpr ⟨i, hi, rfl, ⟨set, hset, ht⟩, hmatch⟩
    · show dataGet data (i : Int) = some (data.get ⟨i, hi⟩)
      unfold dataGet
      rw [if_pos (by omega : (0 : Int) ≤ (i : Int))]
      have hton : ((i : Int)).toNat = i := rfl
      rw [hton, List.get?_eq_get hi]

theorem c1_witness :
    (∀ u ∈ [['x'], ['a','b']], jsToLower u ≠ [] →
      ((0 : Nat) : Int) ∈ (newBuild [['x']] [[['x'], ['a','b']]]).termToTextIndices
        (jsToLower u)) ∧
    some (List.get [['x']] ⟨0, by decide⟩) ∈
      (mapBuild [['x']] [[['x'], ['a','b']]]).search ['a'] :=
  c1_amended [['x']] [[['x'], ['a','b']]] 0 (by decide) [['x'], ['a','b']]
    (by decide) ['x'] (by decide) (by decide) ['a'] (by decide) ['a','b']
    (by decide) (by decide)

/-- Case analysis of the legacy `search`: the result is empty (guard, or no
set term starting with the query — in which case the trie fallback walk
fails too), or it is the sorted, sentinel-filtered union over the matching
sets. -/
theorem rootSearch_cases (data : List Str) (sets : List (List Str)) (q : Str) :
    (rootBuild data sets).search q = [] ∨
      (jsTrim q ≠ [] ∧
        sets.filter (fun set => set.any
          (fun term => (jsToLower q).isPrefixOf (jsToLower term))) ≠ [] ∧
        (rootBuild data sets).search q =
          (((sets.filter (fun set => set.any
              (fun term => (jsToLower q).isPrefixOf (jsToLower term)))).foldl
            (fun acc set => set.foldl (fun acc term =>
              ((rootBuild data sets).termToTextIndices term).foldl
                (fun acc idx => if idx ≠ -1 then jsAdd acc idx else acc) acc) acc)
            []).insertionSort (· ≤ ·)).map (dataGet data)) := by
  by_cases hq : jsTrim q = []
  · refine Or.inl ?_
    unfold RootState.search
    rw [if_pos hq]
  · have hqne : q ≠ [] := fun h => hq (h ▸ jsTrim_nil)
    have hlqne : jsToLower q ≠ [] := fun h => hqne ((jsToLower_eq_nil_iff q).mp h)
    by_cases hm : sets.filter (fun set => set.any
        (fun term => (jsToLower q).isPrefixOf (jsToLower term))) = []
    · refine Or.inl ?_
      unfold RootState.search
      rw [if_neg hq]
      simp only []
      rw [(rootBuild_data data sets).2, if_pos hm]
      have hwalk : walkT (rootBuild data sets).root (jsToLower q) = none := by
        by_contra hc
        rcases rootBuild_walk_iff.mp hc with h0 | ⟨set, hset, term, hterm, hpre⟩
        · exact hlqne h0
        · exact (List.filter_eq_nil_iff.mp hm set hset)
            (List.any_eq_true.mpr ⟨term, hterm, hpre⟩)
      rw [searchInTrie_of_walk_none hwalk]
      simp
    · refine Or.inr ⟨hq, hm, ?_⟩
      unfold RootState.search
      rw [if_neg hq]
      simp only []
      rw [(rootBuild_data data sets).2, if_neg hm, (rootBuild_data data sets).1]

theorem sorted_lt_of_sorted_le_nodup {l : List Int}
    (h1 : l.Sorted (· ≤ ·)) (h2 : l.Nodup) : l.Sorted (· < ·) := by
  have hand := List.Pairwise.and h1 h2
  exact hand.imp (fun hab => lt_of_le_of_ne hab.1 hab.2)

theorem dataGet_coe (data : List Str) (i : Nat) (hi : i < data.length) :
    dataGet data (i : Int) = some (data.get ⟨i, hi⟩) := by
  unfold dataGet
  rw [if_pos (by omega : (0 : Int) ≤ (i : Int))]
  have hton : ((i : Int)).toNat = i := rfl
  rw [hton, List.get?_eq_get hi]

/-- Claim C10: every element the legacy `search` returns is `data[i]` for an
actual document position `i` registered (with a non-sentinel index) for a
term of a set matched by the query; the sentinel `-1` is filtered out on both
collection paths and never reaches the output, so no `undefined` entry (here:
`Option.none`) is ever returned. -/
theorem c10_sentinel_containment (data : List Str) (sets : List (List Str))
    (q : Str) :
    ∀ x ∈ (rootBuild data sets).search q,
      ∃ i : Nat, ∃ h : i < data.length, x = some (data.get ⟨i, h⟩) ∧
        ∃ set ∈ sets,
          (∃ t2 ∈ set, (jsToLower q).isPrefixOf (jsToLower t2) = true) ∧
          ∃ term ∈ set, ((i : Int) ∈ (rootBuild data sets).termToTextIndices term ∧
            (i : Int) ≠ -1) := by
  intro x hx
  rcases rootSearch_cases data sets q with hcase | ⟨hq, hm, hcase⟩
  · rw [hcase] at hx
    exact absurd hx (List.not_mem_nil _)
  · rw [hcase] at hx
    obtain ⟨idx, hidxs, hxeq⟩ := List.mem_map.mp hx
    rw [List.mem_insertionSort] at hidxs
    rcases mem_setFoldNe.mp hidxs with habs | ⟨set, hsetm, term, hterm, htti, hne⟩
    · exact absurd habs (List.not_mem_nil _)
    · obtain ⟨hset, hany⟩ := List.mem_filter.mp hsetm
      obtain ⟨j, hj, rfl, _, _⟩ := rootTti_filter_eq_mapTti.mp ⟨htti, hne⟩
        |> mapBuild_tti_mem.mp
      refine ⟨j, hj, ?_, set, hset, ?_, term, hterm, htti, hne⟩
      · rw [← hxeq, dataGet_coe data j hj]
      · obtain ⟨t2, ht2, hp2⟩ := List.any_eq_true.mp hany
        exact ⟨t2, ht2, hp2⟩

theorem c10_witness :
    ∃ i : Nat, ∃ h : i < ([['x']] : List Str).length,
      some (List.get [['x']] ⟨0, by decide⟩) = some (List.get [['x']] ⟨i, h⟩) ∧
        ∃ set ∈ [[['x']]],
          (∃ t2 ∈ set, (jsToLower ['x']).isPrefixOf (jsToLower t2) = true) ∧
          ∃ term ∈ set,
            ((i : Int) ∈ (rootBuild [['x']] [[['x']]]).termToTextIndices term ∧
              (i : Int) ≠ -1) :=
  c10_sentinel_containment [['x']] [[['x']]] ['x']
    (some (List.get [['x']] ⟨0, by decide⟩)) (by decide)

/-- Claim C5: for both variants, the positions underlying the `search` result
are strictly ascending with no duplicates, and each returned element is the
(original-case) document text at that position. -/
theorem c5_result_ordering (data : List Str) (sets : List (List Str)) (q : Str) :
    (∃ is : List Int, (rootBuild data sets).search q = is.map (dataGet data) ∧
      is.Sorted (· < ·) ∧
      ∀ i ∈ is, ∃ j : Nat, ∃ h : j < data.length, i = (j : Int) ∧
        dataGet data i = some (data.get ⟨j, h⟩)) ∧
    (∃ is : List Int, (mapBuild data sets).search q = is.map (dataGet data) ∧
      is.Sorted (· < ·) ∧
      ∀ i ∈ is, ∃ j : Nat, ∃ h : j < data.length, i = (j : Int) ∧
        dataGet data i = some (data.get ⟨j, h⟩)) := by
  constructor
  · rcases rootSearch_cases data sets q with hcase | ⟨hq, hm, hcase⟩
    · exact ⟨[], by rw [hcase]; rfl, List.sorted_nil, by simp⟩
    · refine ⟨_, hcase, ?_, ?_⟩
      · refine sorted_lt_of_sorted_le_nodup (List.sorted_insertionSort _ _) ?_
        exact (List.perm_insertionSort _ _).nodup_iff.mpr
          (nodup_setFoldNe List.nodup_nil)
      · intro i hi
        rw [List.mem_insertionSort] at hi
        rcases mem_setFoldNe.mp hi with habs | ⟨set, hsetm, term, hterm, htti, hne⟩
        · exact absurd habs (List.not_mem_nil _)
        · obtain ⟨j, hj, rfl, _, _⟩ := rootTti_filter_eq_mapTti.mp ⟨htti, hne⟩
            |> mapBuild_tti_mem.mp
          exact ⟨j, hj, rfl, dataGet_coe data j hj⟩
  · by_cases hq : jsTrim q = []
    · refine ⟨[], ?_, List.sorted_nil, by simp⟩
      unfold MapState.search
      rw [if_pos hq]
      rfl
    · refine ⟨((sets.filter (fun set => set.any
            (fun term => (jsToLower q).isPrefixOf (jsToLower term)))).foldl
          (fun acc set => set.foldl (fun acc term =>
            ((mapBuild data sets).termToTextIndices term).foldl
              (fun acc idx => jsAdd acc idx) acc) acc)
          []).insertionSort (· ≤ ·), ?_, ?_, ?_⟩
      · unfold MapState.search
        rw [if_neg hq]
        rfl
      · refine sorted_lt_of_sorted_le_nodup (List.sorted_insertionSort _ _) ?_
        exact (List.perm_insertionSort _ _).nodup_iff.mpr
          (nodup_setFold List.nodup_nil)
      · intro i hi
        rw [List.mem_insertionSort] at hi
        rcases mem_setFold.mp hi with habs | ⟨set, hsetm, term, hterm, htti⟩
        · exact absurd habs (List.not_mem_nil _)
        · obtain ⟨j, hj, rfl, _, _⟩ := mapBuild_tti_mem.mp htti
          exact ⟨j, hj, rfl, dataGet_coe data j hj⟩

theorem c5_witness :
    (∃ is : List Int, (rootBuild [['x']] [[['x']]]).search ['x'] =
        is.map (dataGet [['x']]) ∧ is.Sorted (· < ·) ∧
      ∀ i ∈ is, ∃ j : Nat, ∃ h : j < ([['x']] : List Str).length, i = (j : Int) ∧
        dataGet [['x']] i = some (List.get [['x']] ⟨j, h⟩)) ∧
    (∃ is : List Int, (mapBuild [['x']] [[['x']]]).search ['x'] =
        is.map (dataGet [['x']]) ∧ is.Sorted (· < ·) ∧
      ∀ i ∈ is, ∃ j : Nat, ∃ h : j < ([['x']] : List Str).length, i = (j : Int) ∧
        dataGet [['x']] i = some (List.get [['x']] ⟨j, h⟩)) :=
  c5_result_ordering [['x']] [[['x']]] ['x']
